import Mathlib

/-
  Verification development for the mac-file-organizer repository.

  The Python sources are shallowly embedded as Lean definitions:

  * `FileGrouper`   models src/mac_file_organizer/file_grouper.py
  * `FileClassifier` models src/mac_file_organizer/file_classifier.py
  * `FileManager`   models the relevant parts of src/mac_file_organizer/file_manager.py
  * `FolderCleaner` models src/mac_file_organizer/folder_cleaner.py
  * `FileMonitor`   models src/mac_file_organizer/file_monitor.py

  Conventions used throughout:
  * Python strings are Lean `String`s (ASCII is assumed for case mapping, as the
    regexes in the source are ASCII character classes).
  * Python floats are modelled as `Rat`; the constants 0.65, 0.2 and 0.05 of the
    source are exactly representable, so no rounding subtleties arise on the
    code paths the claims exercise.
  * `difflib.SequenceMatcher(None, a, b).ratio()` is an external library call;
    it is modelled as an oracle parameter `simFn : String → String → Rat`.
    Every theorem quantifies over the oracle or instantiates it at a concrete
    function; none of the settled claims depends on its value.
  * Regular expressions of the source are compiled by hand into deterministic
    scanning functions.  Each such function carries a comment naming the regex
    it implements and, where the regex engine's backtracking is provably
    irrelevant (greedy quantifier followed by a disjoint character class), a
    note to that effect.
-/

namespace FileGrouper

/- `self.common_words` from FileGrouper.__init__ (file_grouper.py lines 20-24). -/
def common_words : List String :=
  ["active", "new", "copy", "backup", "final", "draft", "old", "image",
   "file", "document", "untitled", "screenshot", "photo", "picture",
   "scan", "export", "import", "temp", "tmp", "test", "sample", "demo"]

/- `self.similarity_threshold = 0.65` (line 33). -/
def similarity_threshold : Rat := 13 / 20

/- `self.min_prefix_length = 4` (line 36). -/
def min_prefix_length : Nat := 4

/- `self.min_files_for_group = 2` (line 42). -/
def min_files_for_group : Nat := 2

/- ASCII `\w` of the Python regexes: [A-Za-z0-9_]. -/
def isWordChar (c : Char) : Bool := c.isAlpha || c.isDigit || c = '_'

/- ASCII [A-Za-z0-9]. -/
def isAlnum (c : Char) : Bool := c.isAlpha || c.isDigit

/- Python str.lower / str.upper on ASCII data. -/
def lowerStr (s : String) : String := ⟨s.data.map Char.toLower⟩

/- Python s.startswith(p): p is a prefix of s. -/
def pyStartsWith (s p : String) : Bool := p.data.isPrefixOf s.data

/- Python str.capitalize(): first character upper-cased, the rest lower-cased. -/
def pyCapitalize (s : String) : String :=
  match s.data with
  | [] => ""
  | c :: rest => ⟨Char.toUpper c :: rest.map Char.toLower⟩

/- Matches `\d{2}` at the head of the input; returns (matched, rest). -/
def twoDigits : List Char → Option (List Char × List Char)
  | c1 :: c2 :: rest => if c1.isDigit && c2.isDigit then some ([c1, c2], rest) else none
  | _ => none

/- Matches `[-_]?\d{2}` at the head of the input, greedily: the branch that
   consumes a separator is tried first.  The two branches can never both
   succeed on the same input (a separator is not a digit), so no deeper
   backtracking is possible in the original regex either. -/
def optSepTwoDigits (cs : List Char) : Option (List Char × List Char) :=
  (match cs with
   | c :: rest =>
     if c = '-' || c = '_' then (twoDigits rest).map (fun p => (c :: p.1, p.2)) else none
   | [] => none)
  <|> twoDigits cs

/- Matches `20\d{2}` at the head of the input. -/
def lit20TwoDigits : List Char → Option (List Char × List Char)
  | '2' :: '0' :: rest => (twoDigits rest).map (fun p => ('2' :: '0' :: p.1, p.2))
  | _ => none

/- Matches `[-_]?20\d{2}` at the head of the input (greedy, branches disjoint). -/
def optSepLit20 (cs : List Char) : Option (List Char × List Char) :=
  (match cs with
   | c :: rest =>
     if c = '-' || c = '_' then (lit20TwoDigits rest).map (fun p => (c :: p.1, p.2)) else none
   | [] => none)
  <|> lit20TwoDigits cs

/- First alternative of `self.date_pattern`: `20\d{2}[-_]?\d{2}[-_]?\d{2}`. -/
def matchDateA : List Char → Option (List Char)
  | '2' :: '0' :: rest =>
    (twoDigits rest).bind fun p1 =>
    (optSepTwoDigits p1.2).bind fun p2 =>
    (optSepTwoDigits p2.2).map fun p3 =>
    '2' :: '0' :: (p1.1 ++ p2.1 ++ p3.1)
  | _ => none

/- Second alternative: `\d{2}[-_]?\d{2}[-_]?20\d{2}`. -/
def matchDateB (cs : List Char) : Option (List Char) :=
  (twoDigits cs).bind fun p1 =>
  (optSepTwoDigits p1.2).bind fun p2 =>
  (optSepLit20 p2.2).map fun p3 =>
  p1.1 ++ p2.1 ++ p3.1

/- Third alternative: `\d{8}`. -/
def matchDateC (cs : List Char) : Option (List Char) :=
  let t := cs.take 8
  if t.length = 8 && t.all Char.isDigit then some t else none

/- Fourth alternative: `17\d{8}`. -/
def matchDateD : List Char → Option (List Char)
  | '1' :: '7' :: rest =>
    let t := rest.take 8
    if t.length = 8 && t.all Char.isDigit then some ('1' :: '7' :: t) else none
  | _ => none

/- The full alternation of `self.date_pattern` tried at one position,
   in the alternative order of the source regex (lines 27-30). -/
def datePatternAt (cs : List Char) : Option (List Char) :=
  matchDateA cs <|> matchDateB cs <|> matchDateC cs <|> matchDateD cs

/- `self.date_pattern.search`: leftmost match wins, alternatives in order. -/
def datePatternSearch : List Char → Option (List Char)
  | [] => none
  | c :: rest => datePatternAt (c :: rest) <|> datePatternSearch rest

def date_pattern_search (s : String) : Option String :=
  (datePatternSearch s.data).map (fun cs => ⟨cs⟩)

/- `re.sub(r'^\d+[-_ ]', '', name)` from _extract_business_prefix (line 227).
   The greedy `\d+` takes the maximal digit run; shrinking it would put a digit
   where the separator class is required, so backtracking never helps. -/
def stripNumericPre (cs : List Char) : List Char :=
  let ds := cs.takeWhile Char.isDigit
  match ds, cs.drop ds.length with
  | [], _ => cs
  | _ :: _, c :: r => if c = '-' || c = '_' || c = ' ' then r else cs
  | _ :: _, [] => cs

/- `re.sub(r'^20\d{2}[-_]\d{2}[-_]\d{2}[-_ ]', '', clean_name)` (line 228). -/
def stripDatePre (cs : List Char) : List Char :=
  match cs with
  | '2' :: '0' :: a :: b :: s1 :: c :: d :: s2 :: e :: f :: s3 :: rest =>
    if a.isDigit && b.isDigit && (s1 = '-' || s1 = '_') &&
       c.isDigit && d.isDigit && (s2 = '-' || s2 = '_') &&
       e.isDigit && f.isDigit && (s3 = '-' || s3 = '_' || s3 = ' ') then rest else cs
  | _ => cs

/- `self.business_prefix_pattern.search`, the anchored regex
   `^([A-Za-z0-9]+[-_.][A-Za-z0-9]+|[A-Za-z]{3,})` (line 39).
   For the first alternative the greedy `[A-Za-z0-9]+` runs are maximal:
   shrinking the first run would place an alphanumeric character where the
   separator class is required, so the match is the maximal run, one
   separator, then the next maximal run. -/
def businessPrefixAt (cs : List Char) : Option (List Char) :=
  (let r1 := cs.takeWhile isAlnum
   if r1.isEmpty then none
   else
     match cs.drop r1.length with
     | c :: rest2 =>
       if c = '-' || c = '_' || c = '.' then
         let r2 := rest2.takeWhile isAlnum
         if r2.isEmpty then none else some (r1 ++ c :: r2)
       else none
     | [] => none)
  <|> (let r := cs.takeWhile Char.isAlpha
       if 3 ≤ r.length then some r else none)

/- FileGrouper._extract_business_prefix (lines 216-238). -/
def extractBusinessPref (name : String) : String :=
  let clean := stripDatePre (stripNumericPre name.data)
  match businessPrefixAt clean with
  | some p =>
    if common_words.contains (lowerStr ⟨p⟩) then "" else ⟨p⟩
  | none => ""

/- Word-boundary test of `\b` between an optional left and right character
   (characters outside the string count as non-word). -/
def wordBoundary (l r : Option Char) : Bool :=
  (match l with | some c => isWordChar c | none => false) !=
  (match r with | some c => isWordChar c | none => false)

/- `re.search(r'\b' + re.escape(g) + r'\b', s)` for a literal `g`:
   some occurrence of `g` in `s` is delimited by word boundaries. -/
def wholeWordIn (g s : List Char) : Bool :=
  (List.range (s.length + 1)).any fun i =>
    ((s.drop i).take g.length = g)
    && wordBoundary (if i = 0 then none else s[i-1]?) g.head?
    && wordBoundary g.getLast? s[i + g.length]?

/- One child of the directory the grouper scans (`target_dir.iterdir()`).
   `fileStems` are the stems of the plain files inside the child (used by the
   fuzzy strategy of find_group_for_file), `subdirNames` the names of the
   sub-folders inside it (used by the fuzzy strategy of find_group_for_folder). -/
structure FSEntry where
  name : String
  isDir : Bool
  fileStems : List String
  subdirNames : List String
deriving DecidableEq, Repr

/- Strategy 1 of find_group_for_file (lines 60-72) and of
   find_group_for_folder (lines 146-158): first directory entry whose
   non-stopword name occurs as a whole word in the candidate name. -/
def step1 (cand : String) (entries : List FSEntry) : Option String :=
  (entries.find? fun e =>
    e.isDir
    && !(common_words.contains (lowerStr e.name))
    && wholeWordIn (lowerStr e.name).data (lowerStr cand).data).map (·.name)

/- Strategy 2 of find_group_for_file (lines 74-89) and of
   find_group_for_folder (lines 160-175): business-prefix containment against
   existing directories, else a brand-new capitalized group name. -/
def step2 (cand : String) (entries : List FSEntry) : Option String :=
  let p := extractBusinessPref cand
  if p ≠ "" && min_prefix_length ≤ p.length then
    match (entries.find? fun e =>
        e.isDir
        && (pyStartsWith (lowerStr e.name) (lowerStr p)
            || pyStartsWith (lowerStr p) (lowerStr e.name))).map (·.name) with
    | some g => some g
    | none =>
      if !(common_words.contains (lowerStr p)) then some (pyCapitalize p) else none
  else none

/- Strategy 3 of find_group_for_file (lines 91-104) and of
   find_group_for_folder (lines 177-186): a date token yields a `Date-` group.
   In the source both branches of the `len(date_str) > 8` test emit
   `f"Date-{date_str[:10]}"`, and for a match of length at most 8 the `[:10]`
   slice is the whole token. -/
def step3 (cand : String) : Option String :=
  match date_pattern_search cand with
  | some d =>
    if 8 < d.length then some ("Date-" ++ ⟨d.data.take 10⟩) else some ("Date-" ++ d)
  | none => none

/- Global `re.sub(pat, '', s)` for a pattern matcher `m` that, on a match
   starting at the current position, returns the rest of the input after the
   matched text.  The scan advances one character when no match starts at the
   current position, and resumes after the removed text on a match; this is
   exactly the semantics of a global substitution by the empty string.
   `hm` certifies that a match consumes at least one character. -/
def scanSub (m : List Char → Option (List Char))
    (hm : ∀ cs r, m cs = some r → r.length < cs.length) : List Char → List Char
  | [] => []
  | c :: rest =>
    match h : m (c :: rest) with
    | some r => scanSub m hm r
    | none => c :: scanSub m hm rest
termination_by cs => cs.length
decreasing_by
  · exact hm _ _ h
  · simp

/- Matches `\)` at the head of the input, returning the rest. -/
def matchCloseParen : List Char → Option (List Char)
  | ')' :: r2 => some r2
  | _ => none

def matchCloseParen_le : ∀ cs r, matchCloseParen cs = some r → r.length < cs.length := by
  intro cs r h
  unfold matchCloseParen at h
  split at h
  · cases h; simp
  · exact absurd h (by simp)

/- Matches ` \(\d+\)` at the head of the input (line 284's pattern),
   returning the rest.  The greedy `\d+` takes the maximal digit run;
   shrinking it would put a digit where `\)` is required. -/
def matchParenNum : List Char → Option (List Char)
  | ' ' :: '(' :: rest =>
    if 0 < (rest.takeWhile Char.isDigit).length then
      matchCloseParen (rest.drop (rest.takeWhile Char.isDigit).length)
    else none
  | _ => none

def matchParenNum_shrinks : ∀ cs r, matchParenNum cs = some r → r.length < cs.length := by
  intro cs r h
  unfold matchParenNum at h
  split at h
  · rename_i rest
    split at h
    · have h2 := matchCloseParen_le _ _ h
      have h3 := List.length_drop ((rest.takeWhile Char.isDigit).length) rest
      simp only [List.length_cons]
      omega
    · exact absurd h (by simp)
  · exact absurd h (by simp)

/- The `(\.\d+)?` tail of line 287's pattern: consumed greedily when a dot
   followed by at least one digit is present, otherwise nothing is consumed. -/
def dropVerTail : List Char → List Char
  | '.' :: r2 =>
    if 0 < (r2.takeWhile Char.isDigit).length then
      r2.drop (r2.takeWhile Char.isDigit).length
    else '.' :: r2
  | r1 => r1

def dropVerTail_le : ∀ cs, (dropVerTail cs).length ≤ cs.length := by
  intro cs
  unfold dropVerTail
  split
  · rename_i r2
    split
    · have h3 := List.length_drop ((r2.takeWhile Char.isDigit).length) r2
      simp only [List.length_cons]
      omega
    · exact Nat.le_refl _
  · exact Nat.le_refl _

/- Matches ` v\d+(\.\d+)?` at the head of the input (line 287's pattern),
   returning the rest.  Greedy `\d+` takes maximal digit runs; shrinking a run
   never enables the following `\.` or the end of the pattern, so the
   backtracking of the regex engine is irrelevant. -/
def matchVersion : List Char → Option (List Char)
  | ' ' :: 'v' :: rest =>
    if 0 < (rest.takeWhile Char.isDigit).length then
      some (dropVerTail (rest.drop (rest.takeWhile Char.isDigit).length))
    else none
  | _ => none

def matchVersion_shrinks : ∀ cs r, matchVersion cs = some r → r.length < cs.length := by
  intro cs r h
  unfold matchVersion at h
  split at h
  · rename_i rest
    split at h
    · cases h
      have h2 := dropVerTail_le (rest.drop (rest.takeWhile Char.isDigit).length)
      have h3 := List.length_drop ((rest.takeWhile Char.isDigit).length) rest
      simp only [List.length_cons]
      omega
    · exact absurd h (by simp)
  · exact absurd h (by simp)

/- Matches `20\d{2}[-_]\d{2}[-_]\d{2}` at the head of the input (line 290's
   pattern), returning the rest. -/
def matchCleanDate : List Char → Option (List Char)
  | '2' :: '0' :: a :: b :: s1 :: c :: d :: s2 :: e :: f :: rest =>
    if a.isDigit && b.isDigit && (s1 = '-' || s1 = '_') &&
       c.isDigit && d.isDigit && (s2 = '-' || s2 = '_') &&
       e.isDigit && f.isDigit then some rest else none
  | _ => none

def matchCleanDate_shrinks : ∀ cs r, matchCleanDate cs = some r → r.length < cs.length := by
  intro cs r h
  unfold matchCleanDate at h
  split at h
  · split at h
    · cases h; simp; omega
    · exact absurd h (by simp)
  · exact absurd h (by simp)

/- FileGrouper._clean_name_for_comparison (lines 273-296). -/
def clean_name_for_comparison (s : String) : String :=
  let c1 := scanSub matchParenNum matchParenNum_shrinks s.data
  let c2 := scanSub matchVersion matchVersion_shrinks c1
  let c3 : String := ⟨scanSub matchCleanDate matchCleanDate_shrinks c2⟩
  ((((c3.replace " - Copy" "").replace " copy" "").replace " final" "").replace
    " draft" "").replace " new" ""

/- `re.findall(r'\b\w{3,}\b', s)`: exactly the maximal `\w` runs of length at
   least 3 (an interior position of a run has no word boundary before it, so
   only maximal runs can match, and the trailing `\b` always holds there). -/
def wordRuns : List Char → List (List Char)
  | [] => []
  | c :: rest =>
    if isWordChar c then
      (c :: rest.takeWhile isWordChar) ::
        wordRuns (rest.drop (rest.takeWhile isWordChar).length)
    else wordRuns rest
termination_by cs => cs.length
decreasing_by
  · have h2 := List.length_drop ((rest.takeWhile isWordChar).length) rest
    simp only [List.length_cons]
    omega
  · simp

def wordsOf (s : String) : List String :=
  ((wordRuns s.data).filter (fun r => 3 ≤ r.length)).map (fun r => ⟨r⟩)

/- FileGrouper._calculate_name_similarity (lines 240-271), with the
   SequenceMatcher ratio supplied as the oracle `simFn`. -/
def calculate_name_similarity (simFn : String → String → Rat) (n1 n2 : String) : Rat :=
  let c1 := clean_name_for_comparison n1
  let c2 := clean_name_for_comparison n2
  let sim := simFn c1 c2
  let w1 := (wordsOf (lowerStr c1)).dedup
  let w2 := wordsOf (lowerStr c2)
  let meaningful := w1.filter fun w => w2.contains w && !(common_words.contains w)
  let sim2 :=
    if meaningful.isEmpty then sim
    else sim + min (1 / 5 : Rat) ((1 / 20 : Rat) * meaningful.length)
  min 1 sim2

/- Strategy 4 of find_group_for_file (lines 106-125): fuzzy similarity of the
   candidate stem against the stems of the files already inside each directory
   entry, best strictly-greater score at or above the threshold wins; the
   entries are scanned in directory order and a later equal score does not
   displace an earlier winner. -/
def fuzzyFold (simFn : String → String → Rat) (cand gname : String)
    (names : List String) (acc : Rat × Option String) : Rat × Option String :=
  names.foldl
    (fun acc n =>
      let s := calculate_name_similarity simFn cand n
      if acc.1 < s && similarity_threshold ≤ s then (s, some gname) else acc)
    acc

def step4 (simFn : String → String → Rat) (stem : String)
    (entries : List FSEntry) : Option String :=
  (entries.foldl
    (fun acc e => if e.isDir then fuzzyFold simFn stem e.name e.fileStems acc else acc)
    ((0 : Rat), (none : Option String))).2

/- Strategy 4 of find_group_for_folder (lines 188-211): like step4 but it
   additionally skips stopword-named entries and compares against the names of
   the sub-folders inside each entry. -/
def step4Folder (simFn : String → String → Rat) (cand : String)
    (entries : List FSEntry) : Option String :=
  (entries.foldl
    (fun acc e =>
      if e.isDir && !(common_words.contains (lowerStr e.name)) then
        fuzzyFold simFn cand e.name e.subdirNames acc
      else acc)
    ((0 : Rat), (none : Option String))).2

/- FileGrouper.find_group_for_file (lines 44-128).  `stem` is
   `file_path.stem`; `entries` are the children of `target_dir` in directory
   order.  The four strategies are tried in source order and the first one
   that produces a group name wins; otherwise the sentinel "Ungrouped". -/
def find_group_for_file (simFn : String → String → Rat) (stem : String)
    (entries : List FSEntry) : String :=
  match step1 stem entries with
  | some g => g
  | none =>
    match step2 stem entries with
    | some g => g
    | none =>
      match step3 stem with
      | some g => g
      | none =>
        match step4 simFn stem entries with
        | some g => g
        | none => "Ungrouped"

/- FileGrouper.find_group_for_folder (lines 130-214).  `name` is
   `folder_path.name`.  Strategies 1-3 are textually identical to the file
   variant (operating on the full folder name); strategy 4 differs as in
   step4Folder. -/
def find_group_for_folder (simFn : String → String → Rat) (name : String)
    (entries : List FSEntry) : String :=
  match step1 name entries with
  | some g => g
  | none =>
    match step2 name entries with
    | some g => g
    | none =>
      match step3 name with
      | some g => g
      | none =>
        match step4Folder simFn name entries with
        | some g => g
        | none => "Ungrouped"

end FileGrouper

namespace FileManager

open FileGrouper

/- The insertion-ordered dictionary update of Python's `defaultdict(list)`:
   append the value to the entry of key `k`, creating the entry at the end on
   first use; `dict` iteration order in Python is insertion order. -/
def addToGroups (acc : List (String × List String)) (k v : String) :
    List (String × List String) :=
  match acc with
  | [] => [(k, [v])]
  | (k0, vs) :: rest =>
    if k0 = k then (k0, vs ++ [v]) :: rest else (k0, vs) :: addToGroups rest k v

/- The `date_groups` dictionary built by FileManager._group_by_date_patterns
   (file_manager.py lines 391-398): stems keyed by their first date token. -/
def dateGroupsOf (stems : List String) : List (String × List String) :=
  stems.foldl
    (fun acc stem =>
      match date_pattern_search stem with
      | some d => addToGroups acc d stem
      | none => acc)
    []

/- The grouping decision of FileManager._group_by_date_patterns (lines
   388-413): which `Date-<token>` group directories are created and with which
   member stems.  A date cluster needs at least `min_files_for_group` members,
   and is skipped when its members carry more than one distinct nonempty
   business prefix (`if len(set(prefixes)) > 1: continue`). -/
def group_by_date_patterns (stems : List String) : List (String × List String) :=
  (dateGroupsOf stems).filterMap fun p =>
    if min_files_for_group ≤ p.2.length then
      if 1 < (((p.2.map extractBusinessPref).filter (fun q => q ≠ "")).dedup).length
      then none
      else some ("Date-" ++ p.1, p.2)
    else none

end FileManager

namespace FileClassifier

/- The category → extensions table of config.get_file_categories
   (config.py lines 26-43).  The repository ships no
   resources/file_categories.json, so the built-in default table is the one in
   effect; it is an insertion-ordered dict, modelled as an association list in
   the same order. -/
def file_categories : List (String × List String) :=
  [("Documents", ["pdf", "doc", "docx", "txt", "rtf", "odt", "pages", "xls", "xlsx", "csv"]),
   ("Images", ["jpg", "jpeg", "png", "gif", "bmp", "tiff", "svg", "heic"]),
   ("Videos", ["mp4", "mov", "avi", "wmv", "mkv", "m4v"]),
   ("Audio", ["mp3", "wav", "aac", "flac", "m4a"]),
   ("Archives", ["zip", "rar", "7z", "tar", "gz"]),
   ("Applications", ["dmg", "app", "pkg", "exe"]),
   ("Code", ["py", "js", "java", "c", "cpp", "html", "css", "sql", "swift"]),
   ("Others", [])]

/- FileClassifier.get_categories (file_classifier.py lines 23-25). -/
def get_categories : List String := file_categories.map (fun c => c.1)

/- Python `pat in s` on strings: substring containment. -/
def strContains (s pat : String) : Bool :=
  s.data.tails.any (fun t => pat.data.isPrefixOf t)

/- Python `m.split('/')[0]`. -/
def mainTypeOf (m : String) : String := ⟨m.data.takeWhile (fun c => c ≠ '/')⟩

/- FileClassifier.classify_file (file_classifier.py lines 27-64).
   `ext` is the already-extracted `file_path.suffix.lower().lstrip('.')`;
   `mime` is the result of the external `mimetypes.guess_type` call, an
   oracle: `none` covers both a `None` result and an exception caught by the
   `except` clause (both fall through to the default category). -/
def classify_file (ext : String) (mime : Option String) : String :=
  match file_categories.find? (fun c => c.2.contains ext) with
  | some c => c.1
  | none =>
    match mime with
    | some m =>
      if mainTypeOf m = "image" then "Images"
      else if mainTypeOf m = "video" then "Videos"
      else if mainTypeOf m = "audio" then "Audio"
      else if mainTypeOf m = "text" then "Documents"
      else if mainTypeOf m = "application" then
        if strContains m "pdf" then "Documents"
        else if strContains m "msword" || strContains m "office" ||
                strContains m "document" then "Documents"
        else if strContains m "zip" || strContains m "compressed" ||
                strContains m "archive" then "Archives"
        else if strContains m "executable" || strContains m "x-app" then "Applications"
        else "Others"
      else "Others"
    | none => "Others"

end FileClassifier

namespace FileManager

/- Decimal rendering of the counter in the `f"{base_name}_{counter}{extension}"`
   conflict names: little-endian digit list with explicit fuel (the counter is
   always positive when rendered, and `n + 1` steps suffice for `n`). -/
def digitChar (d : Nat) : Char :=
  match d with
  | 0 => '0' | 1 => '1' | 2 => '2' | 3 => '3' | 4 => '4'
  | 5 => '5' | 6 => '6' | 7 => '7' | 8 => '8' | 9 => '9'
  | _ => '?'

def charDigit (c : Char) : Nat :=
  match c with
  | '0' => 0 | '1' => 1 | '2' => 2 | '3' => 3 | '4' => 4
  | '5' => 5 | '6' => 6 | '7' => 7 | '8' => 8 | '9' => 9
  | _ => 10

def digitsRev : Nat → Nat → List Nat
  | 0, _ => []
  | f + 1, n => if n = 0 then [] else n % 10 :: digitsRev f (n / 10)

/- Python str(n) for a natural number: decimal, most significant digit first. -/
def decRepr (n : Nat) : String :=
  if n = 0 then "0" else ⟨((digitsRev (n + 1) n).map digitChar).reverse⟩

def undigits : List Nat → Nat
  | [] => 0
  | d :: ds => d + 10 * undigits ds

def decodeDec (s : String) : Nat := undigits ((s.data.map charDigit).reverse)

/- The n-th conflict name of _process_file (file_manager.py line 143):
   `f"{base_name}_{counter}{extension}"`. -/
def conflictName (stem ext : String) (n : Nat) : String :=
  stem ++ "_" ++ decRepr n ++ ext

/- The n-th conflict name of _process_folder (line 179): `f"{base_name}_{counter}"`. -/
def conflictNameFolder (base : String) (n : Nat) : String :=
  base ++ "_" ++ decRepr n

/- The `while target_path.exists()` retry loop of _process_file (lines
   138-148) and _process_folder (lines 175-184): starting from counter `n`,
   return the first candidate name that is not already taken.  `occupied` is
   the set of names present in the destination directory (the names for which
   `target_path.exists()` is true); the loop of the source terminates on the
   first free counter, which exists because the directory is finite, so fuel
   `occupied.length + 1` below never runs out (proved in the theorems). -/
def resolveLoop (occupied : List String) (cand : Nat → String) : Nat → Nat → String
  | 0, n => cand n
  | f + 1, n => if cand n ∈ occupied then resolveLoop occupied cand f (n + 1) else cand n

/- The full conflict-resolution step: keep the plain destination name if it is
   free, otherwise retry `cand 1`, `cand 2`, ... until free. -/
def resolve_conflict (occupied : List String) (base : String) (cand : Nat → String) : String :=
  if base ∈ occupied then resolveLoop occupied cand (occupied.length + 1) 1 else base

/- Destination name chosen by _process_file for a file `stem ++ ext`. -/
def resolve_file (occupied : List String) (stem ext : String) : String :=
  resolve_conflict occupied (stem ++ ext) (conflictName stem ext)

/- Destination name chosen by _process_folder for a folder `base`. -/
def resolve_folder (occupied : List String) (base : String) : String :=
  resolve_conflict occupied base (conflictNameFolder base)

/- N successive _process_file moves into one directory: each move resolves
   its name against the current directory listing and, once the rename
   succeeds, its destination name joins the listing seen by later moves. -/
def process_moves (occupied : List String) : List (String × String) → List String
  | [] => []
  | (stem, ext) :: rest =>
    resolve_file occupied stem ext ::
      process_moves (resolve_file occupied stem ext :: occupied) rest

end FileManager

namespace FolderCleaner

/- `MANUAL_FOLDER_NAME` / `REVIEW_FOLDER_NAME` from config.py lines 13-14;
   `special_folders` of FolderCleaner.clean_empty_folders (line 24). -/
def isSpecialName (s : String) : Bool := s = "Manual" || s = "Review"

/- A directory tree: the cleaner only needs names and the dir/file shape. -/
inductive Entry where
  | file (name : String)
  | dir (name : String) (children : List Entry)

/- The deletion test of one loop iteration of clean_empty_folders
   (folder_cleaner.py lines 39-50): a directory is removed when its name is
   not special and it is empty at the moment it is visited. -/
def deletableE : Entry → Bool
  | .dir n [] => !isSpecialName n
  | _ => false

/- Deleting, in one pass of clean_empty_folders, every currently-empty
   non-special directory sitting exactly `k` levels below the root.
   Directories of equal depth are independent (deleting one cannot make a
   sibling-depth directory empty or non-empty), so processing a whole depth
   level at once is the per-path iteration of the source restricted to that
   level of its depth-sorted snapshot. -/
def pruneAtDepth : Nat → Entry → Entry
  | 0, t => t
  | 1, t =>
    match t with
    | .file n => .file n
    | .dir n cs => .dir n (cs.filter (fun c => !deletableE c))
  | k + 2, t =>
    match t with
    | .file n => .file n
    | .dir n cs => .dir n (cs.map (pruneAtDepth (k + 1)))

/- One full pass of the `for dir_path in all_dirs:` loop (lines 34-54): the
   snapshot `all_dirs` is sorted deepest first (`len(d.parts)` descending),
   and emptiness is tested live, so the pass processes depth `k`, then depth
   `k-1`, ... down to depth 1; a directory whose children were all deleted
   earlier in the same pass is itself deleted when its (shallower) depth is
   reached. -/
def pruneDown : Nat → Entry → Entry
  | 0, t => t
  | k + 1, t => pruneDown k (pruneAtDepth (k + 1) t)

mutual

def sizeE : Entry → Nat
  | .file _ => 1
  | .dir _ cs => 1 + sizeL cs

def sizeL : List Entry → Nat
  | [] => 0
  | c :: cs => sizeE c + sizeL cs

end

mutual

def depthE : Entry → Nat
  | .file _ => 0
  | .dir _ cs => 1 + depthL cs

def depthL : List Entry → Nat
  | [] => 0
  | c :: cs => max (depthE c) (depthL cs)

end

/- One complete pass over the depth-sorted snapshot: `sizeE t` bounds the
   depth of the tree, and pruning at a level deeper than the tree is a no-op,
   so running the levels `sizeE t, ..., 1` is the full deepest-first pass. -/
def cleanPass (t : Entry) : Entry := pruneDown (sizeE t) t

/- The `while folders_deleted:` loop (lines 30-54): the flag records whether
   some `rmdir` ran during the pass; each `rmdir` removes exactly one node of
   the tree and nothing else mutates it, so the pass deleted something exactly
   when the node count dropped.  Each deleting pass removes at least one of
   the finitely many directories, hence `sizeE t` passes always reach the
   fixed point before the fuel runs out (proved in the theorems below). -/
def clean_loop : Nat → Entry → Entry
  | 0, t => t
  | f + 1, t =>
    if sizeE (cleanPass t) = sizeE t then cleanPass t else clean_loop f (cleanPass t)

/- FolderCleaner.clean_empty_folders (lines 21-54), acting on the directory
   tree under the watched root (the root itself is never in `all_dirs`). -/
def clean_empty_folders (t : Entry) : Entry := clean_loop (sizeE t) t

/- The bottom-up one-pass cascade; proved below to coincide with cleanPass. -/
mutual

def cascade : Entry → Entry
  | .file n => .file n
  | .dir n cs => .dir n ((cascadeL cs).filter (fun c => !deletableE c))

def cascadeL : List Entry → List Entry
  | [] => []
  | c :: cs => cascade c :: cascadeL cs

end

/- Per-node check used to state the C7 postcondition: every strict descendant
   directory that is neither special-named nor hidden is non-empty. -/
mutual

def noEmptyVisible : Entry → Bool
  | .file _ => true
  | .dir n cs =>
    (isSpecialName n || FileGrouper.pyStartsWith n "." || !cs.isEmpty) && noEmptyVisibleL cs

def noEmptyVisibleL : List Entry → Bool
  | [] => true
  | c :: cs => noEmptyVisible c && noEmptyVisibleL cs

end

/- C7 postcondition at the root: the root itself is exempt (it is not in
   `all_dirs`), only its strict descendants are constrained. -/
def noEmptyVisibleRoot : Entry → Bool
  | .file _ => true
  | .dir _ cs => noEmptyVisibleL cs

/- Stronger per-node check used as the proof invariant: every strict
   descendant directory that is not special-named is non-empty (the source
   deletes hidden empty directories too, so this holds after cleaning). -/
mutual

def okRest : Entry → Bool
  | .file _ => true
  | .dir n cs => (isSpecialName n || !cs.isEmpty) && okRestL cs

def okRestL : List Entry → Bool
  | [] => true
  | c :: cs => okRest c && okRestL cs

end

/- Number of directories named Manual or Review anywhere in the tree,
   the root included. -/
mutual

def specialCount : Entry → Nat
  | .file _ => 0
  | .dir n cs => (if isSpecialName n then 1 else 0) + specialCountL cs

def specialCountL : List Entry → Nat
  | [] => 0
  | c :: cs => specialCount c + specialCountL cs

end

end FolderCleaner

/- Python s.endswith(p): p is a suffix of s. -/
def pyEndsWith (s p : String) : Bool := p.data.isSuffixOf s.data

namespace FileMonitor

/- A directory tree with last-access metadata.  `atime = none` models a
   `stat()` call that raises: the source catches the exception per item and
   the item is simply not appended. -/
inductive Node where
  | file (name : String) (atime : Option Int)
  | dir (name : String) (atime : Option Int) (children : List Node)

def nodeName : Node → String
  | .file n _ => n
  | .dir n _ _ => n

def isDirNode : Node → Bool
  | .file _ _ => false
  | .dir _ _ _ => true

/- `now - atime > REVIEW_THRESHOLD` (file_monitor.py lines 46-49 and 63-67);
   times are modelled as integers, which preserves the ordering structure of
   the float arithmetic of the source. -/
def oldP (now threshold : Int) : Option Int → Bool
  | some a => threshold < now - a
  | none => false

/- `str(root_path)` for the walk root `base` followed by components `comps`. -/
def joinPath : List String → String
  | [] => ""
  | c :: rest => "/" ++ c ++ joinPath rest

def pathStr (base : String) (comps : List String) : String := base ++ joinPath comps

/- The per-root skip of get_old_files (lines 36-38):
   `any(str(root_path).startswith(str(folder)) for folder in special_folders)
    or ".app/" in str(root_path) or ".app\\" in str(root_path)`
   with `special_folders = [directory/Manual, directory/Review]` (line 29). -/
def skipRoot (base : String) (comps : List String) : Bool :=
  FileGrouper.pyStartsWith (pathStr base comps) (pathStr base ["Manual"]) ||
  FileGrouper.pyStartsWith (pathStr base comps) (pathStr base ["Review"]) ||
  FileClassifier.strContains (pathStr base comps) ".app/" ||
  FileClassifier.strContains (pathStr base comps) ".app\\"

/- The two `for` loops over one walk root (lines 41-70): the files of the
   root first (lines 41-52), then its sub-directories (lines 55-70), which
   are skipped when the root is the base itself (`root_path == directory`,
   i.e. `comps = []`) or the directory name starts with a dot.  Results are
   paths as component lists below the base. -/
def emitRoot (now threshold : Int) (base : String) (comps : List String)
    (children : List Node) : List (List String) :=
  if skipRoot base comps then []
  else
    (children.filterMap fun c =>
      match c with
      | .file nm a => if oldP now threshold a then some (comps ++ [nm]) else none
      | .dir _ _ _ => none)
    ++
    (children.filterMap fun c =>
      match c with
      | .file _ _ => none
      | .dir nm a _ =>
        if comps.isEmpty || FileGrouper.pyStartsWith nm "." then none
        else if oldP now threshold a then some (comps ++ [nm]) else none)

mutual

/- `os.walk` descending into one child: files have no walk root of their
   own; a directory contributes its own root and, recursively, its subtree. -/
def walkNode (now threshold : Int) (base : String) (comps : List String) :
    Node → List (List String)
  | .file _ _ => []
  | .dir nm _ cs =>
    emitRoot now threshold base (comps ++ [nm]) cs ++
      walkChildren now threshold base (comps ++ [nm]) cs

def walkChildren (now threshold : Int) (base : String) (comps : List String) :
    List Node → List (List String)
  | [] => []
  | c :: cs =>
    walkNode now threshold base comps c ++ walkChildren now threshold base comps cs

end

/- FileMonitor.get_old_files (lines 23-72): the top-down `os.walk` starting
   at the base directory whose listing is `children`.  Note that the `continue`
   of line 38 skips the processing of one root but never prunes the walk:
   deeper roots are still visited and re-tested. -/
def get_old_files (now threshold : Int) (base : String) (children : List Node) :
    List (List String) :=
  emitRoot now threshold base [] children ++ walkChildren now threshold base [] children

/- All (parent path, node) pairs of the tree, used to state which items the
   scan can consider at all. -/
mutual

def nodesAtN (comps : List String) : Node → List (List String × Node)
  | .file _ _ => []
  | .dir nm _ cs => nodesAtL (comps ++ [nm]) cs

def nodesAtL (comps : List String) : List Node → List (List String × Node)
  | [] => []
  | c :: cs => (comps, c) :: (nodesAtN comps c ++ nodesAtL comps cs)

end

/- The local inclusion condition equivalent (for slash- and backslash-free
   names under a clean base) to the walk's string-based skip plus the
   per-item tests: see the C8 theorems. -/
def staleSpec (now threshold : Int) (par : List String) (x : Node) : Bool :=
  (match par.head? with
   | some c1 => !(FileGrouper.pyStartsWith c1 "Manual" || FileGrouper.pyStartsWith c1 "Review")
   | none => true)
  && !(par.dropLast.any (fun c => pyEndsWith c ".app"))
  && (match x with
      | .file _ a => oldP now threshold a
      | .dir nm a _ =>
        oldP now threshold a && !par.isEmpty && !(FileGrouper.pyStartsWith nm "."))

/- Name hygiene for real filesystem entries: a name contains no path
   separator and no backslash. -/
def cleanName (s : String) : Bool :=
  !(FileClassifier.strContains s "/") && !(FileClassifier.strContains s "\\")

mutual

def cleanNamesN : Node → Bool
  | .file n _ => cleanName n
  | .dir n _ cs => cleanName n && cleanNamesL cs

def cleanNamesL : List Node → Bool
  | [] => true
  | c :: cs => cleanNamesN c && cleanNamesL cs

end

/- Base-path hygiene: the base contains no backslash and does not end in a
   way that lets ".app/" or ".app\" straddle the base/child boundary. -/
def cleanBase (s : String) : Bool :=
  !(FileClassifier.strContains s "\\") && !(FileClassifier.strContains s ".app/") &&
  !(pyEndsWith s ".app")

/- The condition under which the walk emits the item `x` found in the
   directory at `par`, read off the two loops of get_old_files: the walk root
   `par` is not skipped, the item's metadata is readable and old, and a
   directory item additionally is neither a direct child of the base nor
   hidden.  The theorems below prove get_old_files returns exactly the items
   satisfying this condition. -/
def emitCond (now threshold : Int) (base : String) (par : List String) (x : Node) : Bool :=
  !skipRoot base par &&
  (match x with
   | .file _ a => oldP now threshold a
   | .dir nm a _ =>
     !par.isEmpty && !(FileGrouper.pyStartsWith nm ".") && oldP now threshold a)

end FileMonitor

namespace FileManager

inductive MoveMethod where
  | rename
  | copyDelete
deriving DecidableEq, Repr

/- The move execution chosen by _move_to_review (file_manager.py lines
   527-537): `if file_path.is_dir() and str(file_path).endswith('.app')`
   the item is moved with `shutil.copytree` followed by `shutil.rmtree`,
   otherwise with `Path.rename`. -/
def review_move_method (isDir : Bool) (pathString : String) : MoveMethod :=
  if isDir && pyEndsWith pathString ".app" then .copyDelete else .rename

/- The move execution of _process_folder (lines 154-188): the only move it
   ever performs is `folder_path.rename(target_path)` (line 187); there is no
   bundle branch in this path. -/
def process_folder_move_method (_folder_path : String) : MoveMethod := .rename

/- The move execution of _process_file (lines 105-152): `file_path.rename`
   (line 151), unconditionally. -/
def process_file_move_method (_file_path : String) : MoveMethod := .rename

end FileManager

/-
  Theorems.  Each claim of the specification audit gets exactly one theorem,
  preceded by shared helper lemmas where useful.
-/

namespace FileGrouper

/- A nonempty business prefix returned by _extract_business_prefix is never a
   stopword: the extractor itself replaces stopword prefixes by the empty
   string (file_grouper.py lines 234-237). -/
theorem extractBusinessPref_not_common (s : String)
    (h : extractBusinessPref s ≠ "") :
    common_words.contains (lowerStr (extractBusinessPref s)) = false := by
  have he : extractBusinessPref s =
      (match businessPrefixAt (stripDatePre (stripNumericPre s.data)) with
       | some p => if common_words.contains (lowerStr ⟨p⟩) then "" else (⟨p⟩ : String)
       | none => "") := rfl
  rw [he] at h ⊢
  revert h
  cases hb : businessPrefixAt (stripDatePre (stripNumericPre s.data)) with
  | none =>
    intro h
    exact absurd rfl h
  | some p =>
    intro h
    dsimp only at h ⊢
    by_cases hc : common_words.contains (lowerStr ⟨p⟩) = true
    · rw [if_pos hc] at h
      exact absurd rfl h
    · rw [if_neg hc]
      simp only [Bool.not_eq_true] at hc
      exact hc

/- A fold preserves any invariant of its accumulator that each step
   preserves. -/
theorem foldl_inv {α β : Type} (f : β → α → β) (P : β → Prop)
    (hf : ∀ acc x, P acc → P (f acc x)) :
    ∀ (l : List α) (acc : β), P acc → P (l.foldl f acc) := by
  intro l
  induction l with
  | nil => intro acc h; exact h
  | cons x xs ih =>
    intro acc h
    exact ih (f acc x) (hf acc x h)

/- The accumulator's group component after a fuzzy inner fold is either
   untouched or the scanned entry's name. -/
theorem fuzzyFold_snd (simFn : String → String → Rat) (cand gname : String)
    (names : List String) (acc : Rat × Option String) :
    (fuzzyFold simFn cand gname names acc).2 = acc.2 ∨
    (fuzzyFold simFn cand gname names acc).2 = some gname := by
  unfold fuzzyFold
  refine foldl_inv _ (fun b => b.2 = acc.2 ∨ b.2 = some gname) ?_ names acc (Or.inl rfl)
  intro b x hb
  dsimp only
  split
  · right; rfl
  · exact hb

/- Invariant of the outer fold of step4Folder: a stopword-named entry never
   becomes the fuzzy winner (mirrors the `continue` of lines 197-198). -/
theorem step4Folder_not_common (simFn : String → String → Rat) (cand : String)
    (entries : List FSEntry) (g : String)
    (hg : step4Folder simFn cand entries = some g) :
    common_words.contains (lowerStr g) = false := by
  unfold step4Folder at hg
  have := foldl_inv
    (fun acc e =>
      if e.isDir && !(common_words.contains (lowerStr e.name)) then
        fuzzyFold simFn cand e.name e.subdirNames acc
      else acc)
    (fun b => ∀ g', b.2 = some g' → common_words.contains (lowerStr g') = false)
    ?_ entries ((0 : Rat), (none : Option String)) ?_
  · exact this g hg
  · intro acc e hacc g' hg'
    dsimp only at hg'
    split at hg'
    · rename_i hguard
      rcases fuzzyFold_snd simFn cand e.name e.subdirNames acc with h | h
      · exact hacc g' (h ▸ hg')
      · rw [h] at hg'
        cases hg'
        simp only [Bool.and_eq_true, Bool.not_eq_true'] at hguard
        exact hguard.2
    · exact hacc g' hg'
  · intro g' hg'
    cases hg'

end FileGrouper

/-- C1: the specification claims the single-item grouper returns Ungrouped
whenever no existing group matches and never synthesizes a brand-new group
name from a single item.  The code does synthesize: with no group directories
at all, find_group_for_file on the stem "ACME-Invoice" returns the freshly
capitalized business prefix "Acme-invoice" rather than "Ungrouped"
(file_grouper.py lines 87-89). -/
theorem c1_counterexample :
    FileGrouper.find_group_for_file (fun _ _ => 0) "ACME-Invoice" [] = "Acme-invoice" ∧
    ("Acme-invoice" : String) ≠ "Ungrouped" := by
  constructor
  · decide
  · decide

/-- C1 (amended): the single-item grouper can synthesize a brand-new group
name from a single item: whenever the candidate stem has a meaningful
business prefix (nonempty, length at least min_prefix_length) and neither the
whole-word strategy nor the prefix-containment scan finds an existing group
directory, find_group_for_file returns the capitalized prefix as a new group
name.  (Only the batch regrouping step requires a cluster of at least
min_files_for_group = 2 members; the grouper itself does not.) -/
theorem c1_amended (simFn : String → String → Rat) (stem : String)
    (entries : List FileGrouper.FSEntry)
    (hne : FileGrouper.extractBusinessPref stem ≠ "")
    (hlen : FileGrouper.min_prefix_length ≤ (FileGrouper.extractBusinessPref stem).length)
    (h1 : FileGrouper.step1 stem entries = none)
    (h2 : entries.find? (fun e =>
        e.isDir &&
          (FileGrouper.pyStartsWith (FileGrouper.lowerStr e.name)
              (FileGrouper.lowerStr (FileGrouper.extractBusinessPref stem)) ||
            FileGrouper.pyStartsWith
              (FileGrouper.lowerStr (FileGrouper.extractBusinessPref stem))
              (FileGrouper.lowerStr e.name))) = none) :
    FileGrouper.find_group_for_file simFn stem entries =
      FileGrouper.pyCapitalize (FileGrouper.extractBusinessPref stem) := by
  have hstep2 : FileGrouper.step2 stem entries =
      some (FileGrouper.pyCapitalize (FileGrouper.extractBusinessPref stem)) := by
    unfold FileGrouper.step2
    simp only [h2, Option.map_none']
    rw [if_pos]
    · rw [FileGrouper.extractBusinessPref_not_common stem hne]
      simp
    · simp only [Bool.and_eq_true, decide_eq_true_eq]
      exact ⟨hne, hlen⟩
  unfold FileGrouper.find_group_for_file
  rw [h1, hstep2]

/-- C1 witness: the amended theorem applied at the concrete stem
"ACME-Invoice" with no existing group directories. -/
theorem c1_amended_witness :
    FileGrouper.find_group_for_file (fun _ _ => 0) "ACME-Invoice" [] =
      FileGrouper.pyCapitalize (FileGrouper.extractBusinessPref "ACME-Invoice") :=
  c1_amended (fun _ _ => 0) "ACME-Invoice" [] (by decide) (by decide) (by decide)
    (by decide)

/-- C2: the specification claims a stopword-named group is never returned as
the matched destination group by find_group_for_file under any of its
strategies.  The code checks the stopword set only in the whole-word strategy
(file_grouper.py lines 65-67); the business-prefix strategy has no such
check, and on the stem "temporary_files" with an existing group directory
named "temp" it returns the stopword group "temp" by prefix containment
(lines 78-85). -/
theorem c2_counterexample :
    FileGrouper.find_group_for_file (fun _ _ => 0) "temporary_files"
        [⟨"temp", true, [], []⟩] = "temp" ∧
    FileGrouper.common_words.contains "temp" = true := by
  constructor
  · decide
  · decide

/-- C2 (amended): the stopword exclusion holds only for the strategies that
implement it: the exact/whole-word strategy (for files and folders alike)
never returns a stopword-named group, and the folder variant's fuzzy strategy
never returns one either; the business-prefix strategy and the file variant's
fuzzy strategy can return stopword-named groups. -/
theorem c2_amended :
    (∀ cand entries g, FileGrouper.step1 cand entries = some g →
        FileGrouper.common_words.contains (FileGrouper.lowerStr g) = false) ∧
    (∀ (simFn : String → String → Rat) cand entries g,
        FileGrouper.step4Folder simFn cand entries = some g →
        FileGrouper.common_words.contains (FileGrouper.lowerStr g) = false) := by
  constructor
  · intro cand entries g h
    unfold FileGrouper.step1 at h
    rcases Option.map_eq_some'.mp h with ⟨e, hfind, hname⟩
    have hp := List.find?_some hfind
    simp only [Bool.and_eq_true, Bool.not_eq_true'] at hp
    rw [← hname]
    exact hp.1.2
  · intro simFn cand entries g h
    exact FileGrouper.step4Folder_not_common simFn cand entries g h

/-- C2 witness: the whole-word strategy applied at a concrete input — on the
stem "acme-report" with the single group directory "Acme" it answers "Acme",
and the amended theorem yields that "Acme" is not a stopword. -/
theorem c2_amended_witness :
    FileGrouper.common_words.contains (FileGrouper.lowerStr "Acme") = false :=
  c2_amended.1 "acme-report" [⟨"Acme", true, [], []⟩] "Acme" (by decide)

/-- C3: the specification claims the exact/strong-match strategy returns a
group only if it already contains at least one member of the same kind, so an
empty group shell is never matched.  The code has no such membership check:
the whole-word strategy (file_grouper.py lines 60-72) matches the completely
empty group directory "Acme" for the stem "acme-report" (the entry's
fileStems and subdirNames are both empty). -/
theorem c3_counterexample :
    FileGrouper.step1 "acme-report" [⟨"Acme", true, [], []⟩] = some "Acme" ∧
    FileGrouper.find_group_for_file (fun _ _ => 0) "acme-report"
        [⟨"Acme", true, [], []⟩] = "Acme" := by
  constructor
  · decide
  · decide

/-- C3 (amended): the first strategy's match condition is purely name-based:
it returns a group name exactly when some directory entry is a non-stopword
directory whose lower-cased name occurs as a whole word in the lower-cased
candidate name — the contents of the group (fileStems, subdirNames) are
never consulted, so empty or freshly-created group shells can be matched. -/
theorem c3_amended :
    (∀ cand entries g, FileGrouper.step1 cand entries = some g →
        ∃ e ∈ entries, e.name = g ∧
          (e.isDir &&
            !(FileGrouper.common_words.contains (FileGrouper.lowerStr e.name)) &&
            FileGrouper.wholeWordIn (FileGrouper.lowerStr e.name).data
              (FileGrouper.lowerStr cand).data) = true) ∧
    (∀ cand entries (e : FileGrouper.FSEntry), e ∈ entries →
        (e.isDir &&
          !(FileGrouper.common_words.contains (FileGrouper.lowerStr e.name)) &&
          FileGrouper.wholeWordIn (FileGrouper.lowerStr e.name).data
            (FileGrouper.lowerStr cand).data) = true →
        FileGrouper.step1 cand entries ≠ none) := by
  constructor
  · intro cand entries g h
    unfold FileGrouper.step1 at h
    rcases Option.map_eq_some'.mp h with ⟨e, hfind, hname⟩
    have hp := List.find?_some hfind
    exact ⟨e, List.mem_of_find?_eq_some hfind, hname, hp⟩
  · intro cand entries e hmem hcond h
    unfold FileGrouper.step1 at h
    rw [Option.map_eq_none'] at h
    have := List.find?_eq_none.mp h e hmem
    exact this hcond

/-- C3 witness: the amended theorem's existence direction applied at the
concrete empty group shell "Acme" and candidate "acme-report". -/
theorem c3_amended_witness :
    FileGrouper.step1 "acme-report" [⟨"Acme", true, [], []⟩] ≠ none :=
  c3_amended.2 "acme-report" [⟨"Acme", true, [], []⟩] ⟨"Acme", true, [], []⟩
    (by decide) (by decide)

/-- C4: the specification claims a shared date token alone never produces a
grouping match, and in particular that a lone item bearing a date token is
not assigned to a date-named group absent any other match.  The code's
single-item grouper does assign such a group: on the stem "20240501" with no
existing group directories (so no other match is possible),
find_group_for_file returns the synthesized date group "Date-20240501"
(file_grouper.py lines 91-104). -/
theorem c4_counterexample :
    FileGrouper.find_group_for_file (fun _ _ => 0) "20240501" [] = "Date-20240501" ∧
    ("Date-20240501" : String) ≠ "Ungrouped" := by
  constructor
  · decide
  · decide

/-- C4 (amended): in the batch step (_group_by_date_patterns), a date cluster
is materialized only with at least min_files_for_group members and only when
its members' nonempty extracted business prefixes do not contain two distinct
values — so differing prefixes do block date-only batch grouping; but a
cluster all of whose members lack a business prefix is grouped on the shared
date alone, and the single-item grouper assigns a lone item carrying a date
token to a synthesized Date-named group whenever its first two strategies
find nothing. -/
theorem c4_amended :
    (∀ stems g ms, (g, ms) ∈ FileManager.group_by_date_patterns stems →
        FileGrouper.min_files_for_group ≤ ms.length ∧
        (((ms.map FileGrouper.extractBusinessPref).filter
            (fun q => q ≠ "")).dedup).length ≤ 1) ∧
    (∀ stems d ms, (d, ms) ∈ FileManager.dateGroupsOf stems →
        FileGrouper.min_files_for_group ≤ ms.length →
        (∀ s ∈ ms, FileGrouper.extractBusinessPref s = "") →
        ("Date-" ++ d, ms) ∈ FileManager.group_by_date_patterns stems) ∧
    (∀ (simFn : String → String → Rat) stem entries d,
        FileGrouper.step1 stem entries = none →
        FileGrouper.step2 stem entries = none →
        FileGrouper.date_pattern_search stem = some d →
        FileGrouper.find_group_for_file simFn stem entries =
          if 8 < d.length then "Date-" ++ ⟨d.data.take 10⟩ else "Date-" ++ d) := by
  refine ⟨?_, ?_, ?_⟩
  · intro stems g ms h
    unfold FileManager.group_by_date_patterns at h
    rcases List.mem_filterMap.mp h with ⟨p, hp, hf⟩
    split at hf
    · split at hf
      · cases hf
      · rename_i hlen hdedup
        cases hf
        exact ⟨hlen, by omega⟩
    · cases hf
  · intro stems d ms hmem hlen hall
    unfold FileManager.group_by_date_patterns
    refine List.mem_filterMap.mpr ⟨(d, ms), hmem, ?_⟩
    have hfilter : (ms.map FileGrouper.extractBusinessPref).filter
        (fun q => q ≠ "") = [] := by
      rw [List.filter_eq_nil_iff]
      intro a ha
      rcases List.mem_map.mp ha with ⟨s, hs, rfl⟩
      simp [hall s hs]
    rw [if_pos hlen]
    rw [hfilter]
    rfl
  · intro simFn stem entries d h1 h2 hd
    unfold FileGrouper.find_group_for_file
    simp only [h1, h2]
    unfold FileGrouper.step3
    rw [hd]
    by_cases hlen : 8 < d.length <;> simp [hlen]

/-- C4 witness: the third part of the amended theorem applied at the lone
stem "20240501" with no group directories. -/
theorem c4_amended_witness :
    FileGrouper.find_group_for_file (fun _ _ => 0) "20240501" [] =
      if 8 < ("20240501" : String).length then "Date-" ++ ⟨("20240501" : String).data.take 10⟩
      else "Date-" ++ "20240501" :=
  c4_amended.2.2 (fun _ _ => 0) "20240501" [] "20240501" (by decide) (by decide)
    (by decide)

/-- C5: for every file, classify_file returns exactly one category label
drawn from the configured category set (the default table, "Others"
included), and the label is never empty; a missing or failing mimetype guess
(the oracle value none) falls through to "Others".  Totality over all inputs
holds by construction of the Lean function. -/
theorem c5_classifier_total (ext : String) (mime : Option String) :
    FileClassifier.classify_file ext mime ∈ FileClassifier.get_categories ∧
    FileClassifier.classify_file ext mime ≠ "" := by
  have hmem : FileClassifier.classify_file ext mime ∈ FileClassifier.get_categories := by
    unfold FileClassifier.classify_file
    split
    · rename_i c heq
      simp only [FileClassifier.get_categories]
      exact List.mem_map_of_mem _ (List.mem_of_find?_eq_some heq)
    · cases mime with
      | none => decide
      | some m =>
        dsimp only
        split_ifs <;> decide
  refine ⟨hmem, ?_⟩
  have hne : ∀ x ∈ FileClassifier.get_categories, x ≠ "" := by decide
  exact hne _ hmem

/-- C9: the specification claims every move of a bundle-shaped directory (a
directory whose name ends in ".app") is executed as copy-then-delete in every
move path of the engine.  The organization move path has no bundle branch:
_process_folder always executes Path.rename (file_manager.py line 187), so a
bundle directory such as "Tool.app" routed through the organization pass is
renamed, while the very same item would be copy-then-deleted by the
move-to-Review path (lines 527-537). -/
theorem c9_counterexample :
    FileManager.process_folder_move_method "/Users/u/Downloads/Tool.app" =
        FileManager.MoveMethod.rename ∧
    FileManager.review_move_method true "/Users/u/Downloads/Tool.app" =
        FileManager.MoveMethod.copyDelete := by
  constructor
  · rfl
  · decide

/-- C9 (amended): copy-then-delete is used for bundle-shaped directories only
in the move-to-Review path, where it is used exactly for directory items
whose path string ends in ".app"; the organization move paths
(_process_folder and _process_file) move every item, bundles included, by
atomic rename, and non-bundle items are renamed in the Review path too. -/
theorem c9_amended :
    (∀ isDir p, FileManager.review_move_method isDir p =
        FileManager.MoveMethod.copyDelete →
        isDir = true ∧ pyEndsWith p ".app" = true) ∧
    (∀ isDir p, isDir = true → pyEndsWith p ".app" = true →
        FileManager.review_move_method isDir p = FileManager.MoveMethod.copyDelete) ∧
    (∀ p, FileManager.process_folder_move_method p = FileManager.MoveMethod.rename) ∧
    (∀ p, FileManager.process_file_move_method p = FileManager.MoveMethod.rename) ∧
    (∀ isDir p, isDir = false ∨ pyEndsWith p ".app" = false →
        FileManager.review_move_method isDir p = FileManager.MoveMethod.rename) := by
  refine ⟨?_, ?_, fun _ => rfl, fun _ => rfl, ?_⟩
  · intro isDir p h
    unfold FileManager.review_move_method at h
    split at h
    · rename_i hcond
      simp only [Bool.and_eq_true] at hcond
      exact hcond
    · cases h
  · intro isDir p h1 h2
    unfold FileManager.review_move_method
    rw [if_pos]
    rw [h1, h2]
    rfl
  · intro isDir p h
    unfold FileManager.review_move_method
    rw [if_neg]
    simp only [Bool.and_eq_true, not_and]
    intro hd
    rcases h with h | h
    · rw [hd] at h
      cases h
    · rw [h]
      simp

/-- C9 witness: the amended theorem applied at the concrete Review-path move
of the bundle directory "/Users/u/Desktop/Game.app". -/
theorem c9_amended_witness :
    FileManager.review_move_method true "/Users/u/Desktop/Game.app" =
      FileManager.MoveMethod.copyDelete :=
  c9_amended.2.1 true "/Users/u/Desktop/Game.app" rfl (by decide)

namespace FileManager

theorem charDigit_digitChar (d : Nat) (hd : d < 10) : charDigit (digitChar d) = d := by
  interval_cases d <;> rfl

theorem digitsRev_lt (f : Nat) : ∀ n d, d ∈ digitsRev f n → d < 10 := by
  induction f with
  | zero => intro n d hd; cases hd
  | succ f ih =>
    intro n d hd
    by_cases h0 : n = 0
    · rw [h0] at hd
      simp [digitsRev] at hd
    · have : digitsRev (f + 1) n = n % 10 :: digitsRev f (n / 10) := by
        simp [digitsRev, h0]
      rw [this] at hd
      rcases List.mem_cons.mp hd with h | h
      · rw [h]; exact Nat.mod_lt n (by omega)
      · exact ih (n / 10) d h

theorem undigits_digitsRev (f : Nat) : ∀ n, n ≤ f → undigits (digitsRev f n) = n := by
  induction f with
  | zero =>
    intro n hn
    have : n = 0 := by omega
    subst this
    rfl
  | succ f ih =>
    intro n hn
    by_cases h0 : n = 0
    · subst h0; rfl
    · have hd : digitsRev (f + 1) n = n % 10 :: digitsRev f (n / 10) := by
        simp [digitsRev, h0]
      rw [hd]
      have hlt : n / 10 < n := Nat.div_lt_self (by omega) (by omega)
      simp only [undigits]
      rw [ih (n / 10) (by omega)]
      omega

theorem decode_decRepr (n : Nat) : decodeDec (decRepr n) = n := by
  by_cases h0 : n = 0
  · subst h0; decide
  · have hd : decRepr n = ⟨((digitsRev (n + 1) n).map digitChar).reverse⟩ := by
      simp [decRepr, h0]
    rw [hd]
    unfold decodeDec
    show undigits (((((digitsRev (n + 1) n).map digitChar).reverse).map charDigit).reverse) = n
    rw [List.map_reverse, List.reverse_reverse, List.map_map]
    have hmap : (digitsRev (n + 1) n).map (charDigit ∘ digitChar) = digitsRev (n + 1) n := by
      have := List.map_congr_left (l := digitsRev (n + 1) n)
        (f := charDigit ∘ digitChar) (g := id)
        (fun d hd => charDigit_digitChar d (digitsRev_lt (n + 1) n d hd))
      rw [this, List.map_id]
    rw [hmap]
    exact undigits_digitsRev (n + 1) n (by omega)

theorem decRepr_injective : Function.Injective decRepr := by
  intro a b h
  have h2 := congrArg decodeDec h
  rwa [decode_decRepr, decode_decRepr] at h2

theorem conflictName_injective (stem ext : String) :
    Function.Injective (conflictName stem ext) := by
  intro m n h
  apply decRepr_injective
  apply String.ext
  have hd := congrArg String.data h
  simp only [conflictName, String.data_append] at hd
  exact List.append_cancel_left (List.append_cancel_right hd)

theorem conflictNameFolder_injective (base : String) :
    Function.Injective (conflictNameFolder base) := by
  intro m n h
  apply decRepr_injective
  apply String.ext
  have hd := congrArg String.data h
  simp only [conflictNameFolder, String.data_append] at hd
  exact List.append_cancel_left hd

/- The retry loop finds the first free candidate at or after its start
   index, provided a free candidate exists within the fuel budget. -/
theorem resolveLoop_spec (occupied : List String) (cand : Nat → String) :
    ∀ (fuel start : Nat), (∃ k, k < fuel ∧ cand (start + k) ∉ occupied) →
      ∃ j, j < fuel ∧ resolveLoop occupied cand fuel start = cand (start + j) ∧
        cand (start + j) ∉ occupied ∧ ∀ i, i < j → cand (start + i) ∈ occupied := by
  intro fuel
  induction fuel with
  | zero =>
    intro start h
    obtain ⟨k, hk, _⟩ := h
    omega
  | succ f ih =>
    intro start h
    obtain ⟨k, hk, hfree⟩ := h
    by_cases hmem : cand start ∈ occupied
    · have hk0 : k ≠ 0 := by
        rintro rfl
        simp only [Nat.add_zero] at hfree
        exact hfree hmem
      obtain ⟨k', rfl⟩ : ∃ k', k = k' + 1 := ⟨k - 1, by omega⟩
      have hshift : start + (k' + 1) = (start + 1) + k' := by omega
      have hex : ∃ k'', k'' < f ∧ cand ((start + 1) + k'') ∉ occupied :=
        ⟨k', by omega, by rw [← hshift]; exact hfree⟩
      obtain ⟨j, hj, hres, hfree', hall⟩ := ih (start + 1) hex
      refine ⟨j + 1, by omega, ?_, ?_, ?_⟩
      · have hstep : resolveLoop occupied cand (f + 1) start =
            resolveLoop occupied cand f (start + 1) := by
          simp [resolveLoop, hmem]
        rw [hstep, hres]
        congr 1
        omega
      · have : start + (j + 1) = (start + 1) + j := by omega
        rw [this]
        exact hfree'
      · intro i hi
        cases i with
        | zero => simpa using hmem
        | succ i' =>
          have : start + (i' + 1) = (start + 1) + i' := by omega
          rw [this]
          exact hall i' (by omega)
    · refine ⟨0, by omega, ?_, by simpa using hmem, by omega⟩
      simp [resolveLoop, hmem]

/- Pigeonhole: among `occupied.length + 1` pairwise distinct candidate names
   at least one is not taken. -/
theorem exists_free (occupied : List String) (cand : Nat → String)
    (hinj : Function.Injective cand) :
    ∃ k, k < occupied.length + 1 ∧ cand (1 + k) ∉ occupied := by
  by_contra hcon
  push_neg at hcon
  have hsub : (Finset.range (occupied.length + 1)).image (fun k => cand (1 + k)) ⊆
      occupied.toFinset := by
    intro x hx
    rcases Finset.mem_image.mp hx with ⟨k, hk, rfl⟩
    rw [List.mem_toFinset]
    exact hcon k (Finset.mem_range.mp hk)
  have hcard := Finset.card_le_card hsub
  rw [Finset.card_image_of_injOn] at hcard
  · rw [Finset.card_range] at hcard
    have := List.toFinset_card_le occupied
    omega
  · intro a _ b _ hab
    have := hinj hab
    omega

theorem resolve_conflict_not_mem (occupied : List String) (base : String)
    (cand : Nat → String) (hinj : Function.Injective cand) :
    resolve_conflict occupied base cand ∉ occupied := by
  unfold resolve_conflict
  split
  · obtain ⟨k, hk, hfree⟩ := exists_free occupied cand hinj
    obtain ⟨j, hj, hres, hfree', _⟩ :=
      resolveLoop_spec occupied cand (occupied.length + 1) 1 ⟨k, hk, hfree⟩
    rw [hres]
    exact hfree'
  · assumption

end FileManager

/-- C6: conflict resolution is first-free and overwrite-safe.  The chosen
destination name of a _process_file or _process_folder move is never a name
already present in the destination directory; when the plain name is taken,
the chosen name is `stem_n.ext` (resp. `name_n` for folders) for the first
free n starting from 1, every smaller suffix being taken; and N successive
moves into one directory produce N pairwise distinct final names, none of
which was present before.  (In these two move paths the source item lives in
a different directory than the destination, so the "not the source itself"
proviso of the claim is vacuous there.) -/
theorem c6_conflict_resolution :
    (∀ occupied stem ext, FileManager.resolve_file occupied stem ext ∉ occupied) ∧
    (∀ occupied base, FileManager.resolve_folder occupied base ∉ occupied) ∧
    (∀ occupied stem ext, (stem ++ ext) ∈ occupied →
        ∃ n, 1 ≤ n ∧
          FileManager.resolve_file occupied stem ext =
            FileManager.conflictName stem ext n ∧
          FileManager.conflictName stem ext n ∉ occupied ∧
          ∀ m, 1 ≤ m → m < n → FileManager.conflictName stem ext m ∈ occupied) ∧
    (∀ occupied items,
        (FileManager.process_moves occupied items).Nodup ∧
        ∀ p ∈ FileManager.process_moves occupied items, p ∉ occupied) := by
  have hfile : ∀ occupied stem ext, FileManager.resolve_file occupied stem ext ∉ occupied :=
    fun occupied stem ext =>
      FileManager.resolve_conflict_not_mem occupied (stem ++ ext)
        (FileManager.conflictName stem ext)
        (FileManager.conflictName_injective stem ext)
  refine ⟨hfile, ?_, ?_, ?_⟩
  · intro occupied base
    exact FileManager.resolve_conflict_not_mem occupied base
      (FileManager.conflictNameFolder base)
      (FileManager.conflictNameFolder_injective base)
  · intro occupied stem ext hbase
    obtain ⟨k, hk, hfree⟩ := FileManager.exists_free occupied
      (FileManager.conflictName stem ext) (FileManager.conflictName_injective stem ext)
    obtain ⟨j, hj, hres, hfree', hall⟩ :=
      FileManager.resolveLoop_spec occupied (FileManager.conflictName stem ext)
        (occupied.length + 1) 1 ⟨k, hk, hfree⟩
    refine ⟨1 + j, by omega, ?_, hfree', ?_⟩
    · unfold FileManager.resolve_file FileManager.resolve_conflict
      rw [if_pos hbase]
      exact hres
    · intro m hm1 hmj
      obtain ⟨i, rfl⟩ : ∃ i, m = 1 + i := ⟨m - 1, by omega⟩
      exact hall i (by omega)
  · intro occupied items
    induction items generalizing occupied with
    | nil => exact ⟨List.nodup_nil, by intro p hp; cases hp⟩
    | cons it rest ih =>
      obtain ⟨stem, ext⟩ := it
      obtain ⟨hnodup, hdisj⟩ :=
        ih (FileManager.resolve_file occupied stem ext :: occupied)
      constructor
      · refine List.nodup_cons.mpr ⟨?_, hnodup⟩
        intro hmem
        exact hdisj _ hmem (List.mem_cons_self _ _)
      · intro p hp
        rcases List.mem_cons.mp hp with rfl | hp'
        · exact hfile occupied stem ext
        · intro hpo
          exact hdisj p hp' (List.mem_cons_of_mem _ hpo)

/-- C6 witness: with the directory already holding "a.txt" and "a_1.txt", the
move of another "a.txt" resolves to the first free suffixed name. -/
theorem c6_witness :
    ∃ n, 1 ≤ n ∧
      FileManager.resolve_file ["a.txt", "a_1.txt"] "a" ".txt" =
        FileManager.conflictName "a" ".txt" n ∧
      FileManager.conflictName "a" ".txt" n ∉ (["a.txt", "a_1.txt"] : List String) ∧
      ∀ m, 1 ≤ m → m < n →
        FileManager.conflictName "a" ".txt" m ∈ (["a.txt", "a_1.txt"] : List String) :=
  c6_conflict_resolution.2.2.1 ["a.txt", "a_1.txt"] "a" ".txt" (by decide)

namespace FolderCleaner

/- Structural induction for the nested tree type: the motive holds for a
   directory once it holds for every child. -/
theorem Entry.myInd (motive : Entry → Prop)
    (hf : ∀ n, motive (.file n))
    (hd : ∀ n cs, (∀ c ∈ cs, motive c) → motive (.dir n cs)) :
    ∀ t, motive t
  | .file n => hf n
  | .dir n cs => hd n cs (fun c hc =>
      have := List.sizeOf_lt_of_mem hc
      Entry.myInd motive hf hd c)
termination_by t => sizeOf t
decreasing_by
  simp only [Entry.dir.sizeOf_spec]
  omega

theorem sizeE_pos : ∀ t, 1 ≤ sizeE t
  | .file _ => by simp [sizeE]
  | .dir _ _ => by simp [sizeE]

theorem pruneAtDepth_file (k : Nat) (n : String) :
    pruneAtDepth k (.file n) = .file n := by
  match k with
  | 0 => rfl
  | 1 => rfl
  | k + 2 => rfl

theorem pruneDown_file (k : Nat) (n : String) :
    pruneDown k (.file n) = .file n := by
  induction k with
  | zero => rfl
  | succ k ih =>
    show pruneDown k (pruneAtDepth (k + 1) (.file n)) = .file n
    rw [pruneAtDepth_file]
    exact ih

theorem depthE_le_depthL {c : Entry} : ∀ {cs : List Entry}, c ∈ cs → depthE c ≤ depthL cs := by
  intro cs
  induction cs with
  | nil => intro h; cases h
  | cons c0 cs' ih =>
    intro h
    rcases List.mem_cons.mp h with rfl | h'
    · simp only [depthL]
      omega
    · have := ih h'
      simp only [depthL]
      omega

/- Pruning strictly below the tree's depth is a no-op. -/
theorem pruneAtDepth_beyond :
    ∀ t, ∀ k, depthE t ≤ k → pruneAtDepth (k + 1) t = t := by
  intro t
  induction t using Entry.myInd with
  | hf n => intro k _; exact pruneAtDepth_file _ _
  | hd n cs ih =>
    intro k hk
    have hk1 : 1 ≤ k := by
      simp only [depthE] at hk
      omega
    obtain ⟨k', rfl⟩ : ∃ k', k = k' + 1 := ⟨k - 1, by omega⟩
    show Entry.dir n (cs.map (pruneAtDepth (k' + 1))) = Entry.dir n cs
    have hmap : cs.map (pruneAtDepth (k' + 1)) = cs.map id := by
      apply List.map_congr_left
      intro c hc
      have hd : depthE c ≤ k' := by
        have h1 := depthE_le_depthL hc
        simp only [depthE] at hk
        omega
      exact ih c hc k' hd
    rw [hmap, List.map_id]

/- The deepest-first pass unfolds structurally: one pass on a directory is
   one pass on every child followed by the removal of the children that are
   now empty and not special. -/
theorem pruneDown_succ_dir :
    ∀ (k : Nat) (n : String) (cs : List Entry),
      pruneDown (k + 1) (.dir n cs) =
        .dir n ((cs.map (pruneDown k)).filter (fun c => !deletableE c)) := by
  intro k
  induction k with
  | zero =>
    intro n cs
    show pruneDown 0 (pruneAtDepth 1 (.dir n cs)) = _
    have hmap : cs.map (pruneDown 0) = cs.map id :=
      List.map_congr_left (fun c _ => rfl)
    rw [hmap, List.map_id]
    rfl
  | succ k ih =>
    intro n cs
    show pruneDown (k + 1) (pruneAtDepth (k + 2) (.dir n cs)) = _
    have h1 : pruneAtDepth (k + 2) (.dir n cs) =
        Entry.dir n (cs.map (pruneAtDepth (k + 1))) := rfl
    rw [h1, ih]
    have hmap : (cs.map (pruneAtDepth (k + 1))).map (pruneDown k) =
        cs.map (pruneDown (k + 1)) := by
      rw [List.map_map]
      exact List.map_congr_left (fun c _ => rfl)
    rw [hmap]

theorem cascadeL_eq_map : ∀ cs, cascadeL cs = cs.map cascade := by
  intro cs
  induction cs with
  | nil => rfl
  | cons c cs' ih =>
    show cascade c :: cascadeL cs' = _
    rw [ih]
    rfl

theorem depthE_le_sizeE : ∀ t, depthE t ≤ sizeE t := by
  intro t
  induction t using Entry.myInd with
  | hf n => simp [depthE, sizeE]
  | hd n cs ih =>
    simp only [depthE, sizeE]
    have hlist : ∀ (l : List Entry), (∀ c ∈ l, depthE c ≤ sizeE c) → depthL l ≤ sizeL l := by
      intro l
      induction l with
      | nil => intro _; simp [depthL, sizeL]
      | cons c cs' ihl =>
        intro hall
        have h1 := hall c (List.mem_cons_self c cs')
        have h2 := ihl (fun x hx => hall x (List.mem_cons_of_mem c hx))
        have h3 := sizeE_pos c
        simp only [depthL, sizeL]
        omega
    have := hlist cs ih
    omega

end FolderCleaner

namespace FolderCleaner

/- The full deepest-first pass equals the bottom-up cascade. -/
theorem pruneDown_eq_cascade :
    ∀ t, ∀ k, depthE t ≤ k → pruneDown k t = cascade t := by
  intro t
  induction t using Entry.myInd with
  | hf n => intro k _; rw [pruneDown_file]; rfl
  | hd n cs ih =>
    intro k hk
    have hk1 : 1 ≤ k := by
      simp only [depthE] at hk
      omega
    obtain ⟨k', rfl⟩ : ∃ k', k = k' + 1 := ⟨k - 1, by omega⟩
    rw [pruneDown_succ_dir]
    show Entry.dir n ((cs.map (pruneDown k')).filter (fun c => !deletableE c)) = cascade (.dir n cs)
    have hmap : cs.map (pruneDown k') = cascadeL cs := by
      rw [cascadeL_eq_map]
      apply List.map_congr_left
      intro c hc
      apply ih c hc
      have h1 := depthE_le_depthL hc
      simp only [depthE] at hk
      omega
    rw [hmap]
    rfl

theorem cleanPass_eq_cascade (t : Entry) : cleanPass t = cascade t :=
  pruneDown_eq_cascade t (sizeE t) (depthE_le_sizeE t)

theorem cascade_idem : ∀ t, cascade (cascade t) = cascade t := by
  intro t
  induction t using Entry.myInd with
  | hf n => rfl
  | hd n cs ih =>
    show cascade (.dir n ((cascadeL cs).filter (fun c => !deletableE c))) = _
    have hstep : cascade (.dir n ((cascadeL cs).filter (fun c => !deletableE c))) =
        Entry.dir n ((cascadeL ((cascadeL cs).filter (fun c => !deletableE c))).filter
          (fun c => !deletableE c)) := rfl
    rw [hstep]
    have hfix : cascadeL ((cascadeL cs).filter (fun c => !deletableE c)) =
        (cascadeL cs).filter (fun c => !deletableE c) := by
      rw [cascadeL_eq_map ((cascadeL cs).filter (fun c => !deletableE c))]
      have : ∀ x ∈ (cascadeL cs).filter (fun c => !deletableE c), cascade x = x := by
        intro x hx
        have hx' := List.mem_of_mem_filter hx
        rw [cascadeL_eq_map] at hx'
        rcases List.mem_map.mp hx' with ⟨c, hc, rfl⟩
        exact ih c hc
      calc ((cascadeL cs).filter (fun c => !deletableE c)).map cascade
          = ((cascadeL cs).filter (fun c => !deletableE c)).map id :=
            List.map_congr_left this
        _ = (cascadeL cs).filter (fun c => !deletableE c) := List.map_id _
    rw [hfix]
    have hfilter : ((cascadeL cs).filter (fun c => !deletableE c)).filter
        (fun c => !deletableE c) = (cascadeL cs).filter (fun c => !deletableE c) := by
      apply List.filter_eq_self.mpr
      intro a ha
      exact (List.mem_filter.mp ha).2
    rw [hfilter]
    rfl

theorem cleanPass_idem (t : Entry) : cleanPass (cleanPass t) = cleanPass t := by
  rw [cleanPass_eq_cascade, cleanPass_eq_cascade, cascade_idem]

theorem clean_loop_fixed : ∀ (f : Nat) (u : Entry), cleanPass u = u → clean_loop f u = u := by
  intro f
  induction f with
  | zero => intro u _; rfl
  | succ f ih =>
    intro u hu
    show (if sizeE (cleanPass u) = sizeE u then cleanPass u else clean_loop f (cleanPass u)) = u
    rw [hu]
    simp

theorem clean_loop_eq : ∀ (f : Nat) (t : Entry), 1 ≤ f → clean_loop f t = cleanPass t := by
  intro f
  cases f with
  | zero => intro t h; omega
  | succ f =>
    intro t _
    show (if sizeE (cleanPass t) = sizeE t then cleanPass t else clean_loop f (cleanPass t)) = _
    by_cases hs : sizeE (cleanPass t) = sizeE t
    · rw [if_pos hs]
    · rw [if_neg hs]
      exact clean_loop_fixed f (cleanPass t) (cleanPass_idem t)

theorem clean_empty_folders_eq_cascade (t : Entry) :
    clean_empty_folders t = cascade t := by
  unfold clean_empty_folders
  rw [clean_loop_eq (sizeE t) t (sizeE_pos t), cleanPass_eq_cascade]

theorem okRestL_iff : ∀ l : List Entry, okRestL l = true ↔ ∀ x ∈ l, okRest x = true := by
  intro l
  induction l with
  | nil => simp [okRestL]
  | cons c cs ih =>
    constructor
    · intro h x hx
      have h' : okRest c = true ∧ okRestL cs = true := by
        have : okRestL (c :: cs) = (okRest c && okRestL cs) := rfl
        rw [this, Bool.and_eq_true] at h
        exact h
      rcases List.mem_cons.mp hx with rfl | hx'
      · exact h'.1
      · exact ih.mp h'.2 x hx'
    · intro h
      have : okRestL (c :: cs) = (okRest c && okRestL cs) := rfl
      rw [this, Bool.and_eq_true]
      refine ⟨h c (List.mem_cons_self c cs), ih.mpr ?_⟩
      intro x hx
      exact h x (List.mem_cons_of_mem c hx)

/- After the cascade, every surviving strict descendant that is a
   non-special directory is non-empty. -/
theorem cascade_children_ok :
    ∀ t, ∀ n cs, cascade t = Entry.dir n cs → okRestL cs = true := by
  intro t
  induction t using Entry.myInd with
  | hf n => intro n' cs' h; cases h
  | hd n cs ih =>
    intro n' cs' h
    have hc : cascade (.dir n cs) = Entry.dir n ((cascadeL cs).filter (fun c => !deletableE c)) := rfl
    rw [hc] at h
    cases h
    apply (okRestL_iff _).mpr
    intro x hx
    have hkeep := (List.mem_filter.mp hx).2
    have hx' := List.mem_of_mem_filter hx
    rw [cascadeL_eq_map] at hx'
    rcases List.mem_map.mp hx' with ⟨c, hc', rfl⟩
    cases c with
    | file m => exact rfl
    | dir m ds =>
      have hcd : cascade (.dir m ds) =
          Entry.dir m ((cascadeL ds).filter (fun c => !deletableE c)) := rfl
      rw [hcd] at hkeep ⊢
      have hrest : okRestL ((cascadeL ds).filter (fun c => !deletableE c)) = true :=
        ih (.dir m ds) hc' m ((cascadeL ds).filter (fun c => !deletableE c)) hcd
      show ((isSpecialName m || !List.isEmpty _) && okRestL _) = true
      rw [Bool.and_eq_true]
      refine ⟨?_, hrest⟩
      by_cases hspec : isSpecialName m = true
      · rw [hspec]; rfl
      · rcases hemp : (cascadeL ds).filter (fun c => !deletableE c) with _ | ⟨x, xs⟩
        · exfalso
          rw [hemp] at hkeep
          have : deletableE (Entry.dir m []) = !isSpecialName m := rfl
          rw [this] at hkeep
          simp only [Bool.not_eq_true] at hspec
          rw [hspec] at hkeep
          cases hkeep
        · simp [List.isEmpty]

theorem okRest_to_visible : ∀ t, okRest t = true → noEmptyVisible t = true := by
  intro t
  induction t using Entry.myInd with
  | hf n => intro _; rfl
  | hd n cs ih =>
    intro h
    have h' : ((isSpecialName n || !cs.isEmpty) && okRestL cs) = true := h
    rw [Bool.and_eq_true] at h'
    obtain ⟨h1, h2⟩ := h'
    show ((isSpecialName n || FileGrouper.pyStartsWith n "." || !cs.isEmpty) &&
      noEmptyVisibleL cs) = true
    rw [Bool.and_eq_true]
    refine ⟨?_, ?_⟩
    · rw [Bool.or_eq_true] at h1
      rcases h1 with h1' | h1'
      · rw [h1']
        rfl
      · rw [h1']
        simp
    · have hlist : ∀ l : List Entry, (∀ x ∈ l, okRest x = true → noEmptyVisible x = true) →
          okRestL l = true → noEmptyVisibleL l = true := by
        intro l
        induction l with
        | nil => intro _ _; rfl
        | cons c cs' ihl =>
          intro hall hok
          have hok' : (okRest c && okRestL cs') = true := hok
          rw [Bool.and_eq_true] at hok'
          obtain ⟨ho1, ho2⟩ := hok'
          show (noEmptyVisible c && noEmptyVisibleL cs') = true
          rw [Bool.and_eq_true]
          refine ⟨hall c (List.mem_cons_self c cs') ho1, ?_⟩
          exact ihl (fun x hx => hall x (List.mem_cons_of_mem c hx)) ho2
      exact hlist cs ih h2

theorem noEmptyVisibleL_of_okRestL :
    ∀ l : List Entry, okRestL l = true → noEmptyVisibleL l = true := by
  intro l
  induction l with
  | nil => intro _; rfl
  | cons c cs ih =>
    intro h
    have h' : (okRest c && okRestL cs) = true := h
    rw [Bool.and_eq_true] at h'
    obtain ⟨h1, h2⟩ := h'
    show (noEmptyVisible c && noEmptyVisibleL cs) = true
    rw [Bool.and_eq_true]
    exact ⟨okRest_to_visible c h1, ih h2⟩

end FolderCleaner

namespace FolderCleaner

theorem deletable_specialCount : ∀ x, deletableE x = true → specialCount x = 0 := by
  intro x h
  cases x with
  | file n => cases h
  | dir n ds =>
    cases ds with
    | nil =>
      have hd : deletableE (Entry.dir n []) = !isSpecialName n := rfl
      rw [hd, Bool.not_eq_true'] at h
      show (if isSpecialName n then 1 else 0) + specialCountL [] = 0
      rw [h]
      rfl
    | cons d ds' => cases h

theorem specialCountL_filter :
    ∀ l : List Entry, specialCountL (l.filter (fun c => !deletableE c)) = specialCountL l := by
  intro l
  induction l with
  | nil => rfl
  | cons c cs ih =>
    by_cases hdel : deletableE c = true
    · have hfil : (c :: cs).filter (fun c => !deletableE c) =
          cs.filter (fun c => !deletableE c) := by
        simp [List.filter, hdel]
      rw [hfil, ih]
      show specialCountL cs = specialCount c + specialCountL cs
      rw [deletable_specialCount c hdel]
      omega
    · have hfil : (c :: cs).filter (fun c => !deletableE c) =
          c :: cs.filter (fun c => !deletableE c) := by
        simp [List.filter, hdel]
      rw [hfil]
      show specialCount c + specialCountL (cs.filter (fun c => !deletableE c)) = _
      rw [ih]
      rfl

theorem specialCountL_pointwise :
    ∀ l : List Entry, (∀ c ∈ l, specialCount (cascade c) = specialCount c) →
      specialCountL (cascadeL l) = specialCountL l := by
  intro l
  induction l with
  | nil => intro _; rfl
  | cons c cs ih =>
    intro hall
    show specialCount (cascade c) + specialCountL (cascadeL cs) = _
    rw [hall c (List.mem_cons_self c cs),
      ih (fun x hx => hall x (List.mem_cons_of_mem c hx))]
    rfl

theorem cascade_specialCount : ∀ t, specialCount (cascade t) = specialCount t := by
  intro t
  induction t using Entry.myInd with
  | hf n => rfl
  | hd n cs ih =>
    show (if isSpecialName n then 1 else 0) +
        specialCountL ((cascadeL cs).filter (fun c => !deletableE c)) = _
    rw [specialCountL_filter, specialCountL_pointwise cs ih]
    rfl

end FolderCleaner

/-- C7: pruneEmpty reaches a fixed point.  After clean_empty_folders, no
non-special, non-hidden empty directory remains among the strict descendants
of the root (in fact the code deletes hidden empty directories too, so the
stated postcondition follows from the stronger invariant okRest); a further
pass deletes nothing, and running clean_empty_folders again returns the tree
unchanged. -/
theorem c7_prune_fixed_point (t : FolderCleaner.Entry) :
    FolderCleaner.noEmptyVisibleRoot (FolderCleaner.clean_empty_folders t) = true ∧
    FolderCleaner.cleanPass (FolderCleaner.clean_empty_folders t) =
      FolderCleaner.clean_empty_folders t ∧
    FolderCleaner.clean_empty_folders (FolderCleaner.clean_empty_folders t) =
      FolderCleaner.clean_empty_folders t := by
  refine ⟨?_, ?_, ?_⟩
  · rw [FolderCleaner.clean_empty_folders_eq_cascade]
    cases hc : FolderCleaner.cascade t with
    | file n => rfl
    | dir n cs =>
      show FolderCleaner.noEmptyVisibleL cs = true
      exact FolderCleaner.noEmptyVisibleL_of_okRestL cs
        (FolderCleaner.cascade_children_ok t n cs hc)
  · rw [FolderCleaner.clean_empty_folders_eq_cascade,
      FolderCleaner.cleanPass_eq_cascade, FolderCleaner.cascade_idem]
  · rw [FolderCleaner.clean_empty_folders_eq_cascade,
      FolderCleaner.clean_empty_folders_eq_cascade, FolderCleaner.cascade_idem]

/-- C10: the pruner never deletes a directory named Manual or Review at any
depth: cleaning preserves the number of special-named directories of the
tree, and the cleaning pass only ever removes nodes (it filters children),
so every Manual/Review directory — even an empty one nested arbitrarily
deep — survives clean_empty_folders. -/
theorem c10_special_preserved (t : FolderCleaner.Entry) :
    FolderCleaner.specialCount (FolderCleaner.clean_empty_folders t) =
      FolderCleaner.specialCount t := by
  rw [FolderCleaner.clean_empty_folders_eq_cascade]
  exact FolderCleaner.cascade_specialCount t

namespace FileMonitor

/- Structural induction for the nested tree type with metadata. -/
theorem Node.nodeInd (motive : Node → Prop)
    (hf : ∀ n a, motive (.file n a))
    (hd : ∀ n a cs, (∀ c ∈ cs, motive c) → motive (.dir n a cs)) :
    ∀ t, motive t
  | .file n a => hf n a
  | .dir n a cs => hd n a cs (fun c hc =>
      have := List.sizeOf_lt_of_mem hc
      Node.nodeInd motive hf hd c)
termination_by t => sizeOf t
decreasing_by
  simp only [Node.dir.sizeOf_spec]
  omega

theorem emitCond_skip (now th : Int) (base : String) (par : List String) (x : Node)
    (h : emitCond now th base par x = true) : skipRoot base par = false := by
  cases x with
  | file n a =>
    have h' : (!skipRoot base par && oldP now th a) = true := h
    rw [Bool.and_eq_true] at h'
    rw [← Bool.not_eq_true']
    exact h'.1
  | dir n a cs =>
    have h' : (!skipRoot base par &&
        (!par.isEmpty && !(FileGrouper.pyStartsWith n ".") && oldP now th a)) = true := h
    rw [Bool.and_eq_true] at h'
    rw [← Bool.not_eq_true']
    exact h'.1

/- Membership in the per-root emission: exactly the children of the root that
   satisfy the emit condition, at their full paths. -/
theorem emit_mem (now th : Int) (base : String) (comps : List String)
    (l : List Node) (p : List String) :
    p ∈ emitRoot now th base comps l ↔
      ∃ c ∈ l, p = comps ++ [nodeName c] ∧ emitCond now th base comps c = true := by
  by_cases hskip : skipRoot base comps = true
  · unfold emitRoot
    rw [if_pos hskip]
    constructor
    · intro h; cases h
    · rintro ⟨c, _, _, hcond⟩
      have hfalse := emitCond_skip now th base comps c hcond
      rw [hfalse] at hskip
      exact absurd hskip Bool.false_ne_true
  · have hskip' : skipRoot base comps = false := by
      simp only [Bool.not_eq_true] at hskip
      exact hskip
    unfold emitRoot
    rw [if_neg (by rw [hskip']; exact Bool.false_ne_true)]
    constructor
    · intro hp
      rcases List.mem_append.mp hp with hp | hp
      · rcases List.mem_filterMap.mp hp with ⟨c, hc, hf⟩
        cases c with
        | file nm a =>
          dsimp only at hf
          split at hf
          · rename_i hold
            cases hf
            refine ⟨.file nm a, hc, rfl, ?_⟩
            show (!skipRoot base comps && oldP now th a) = true
            rw [hskip', hold]
            rfl
          · cases hf
        | dir nm a cs =>
          dsimp only at hf
          cases hf
      · rcases List.mem_filterMap.mp hp with ⟨c, hc, hf⟩
        cases c with
        | file nm a =>
          dsimp only at hf
          cases hf
        | dir nm a cs =>
          dsimp only at hf
          split at hf
          · cases hf
          · rename_i hguard
            split at hf
            · rename_i hold
              cases hf
              refine ⟨.dir nm a cs, hc, rfl, ?_⟩
              show (!skipRoot base comps &&
                (!comps.isEmpty && !(FileGrouper.pyStartsWith nm ".") &&
                  oldP now th a)) = true
              rw [hskip', hold]
              simp only [Bool.or_eq_true, not_or, Bool.not_eq_true] at hguard
              rw [hguard.1, hguard.2]
              rfl
            · cases hf
    · rintro ⟨c, hc, rfl, hcond⟩
      cases c with
      | file nm a =>
        have hcond' : (!skipRoot base comps && oldP now th a) = true := hcond
        rw [hskip'] at hcond'
        simp only [Bool.not_false, Bool.true_and] at hcond'
        refine List.mem_append.mpr (Or.inl ?_)
        refine List.mem_filterMap.mpr ⟨.file nm a, hc, ?_⟩
        dsimp only
        rw [if_pos hcond']
        rfl
      | dir nm a cs =>
        have hcond' : (!skipRoot base comps &&
            (!comps.isEmpty && !(FileGrouper.pyStartsWith nm ".") &&
              oldP now th a)) = true := hcond
        rw [hskip'] at hcond'
        simp only [Bool.not_false, Bool.true_and, Bool.and_eq_true,
          Bool.not_eq_true'] at hcond'
        refine List.mem_append.mpr (Or.inr ?_)
        refine List.mem_filterMap.mpr ⟨.dir nm a cs, hc, ?_⟩
        dsimp only
        rw [if_neg (by rw [hcond'.1.1, hcond'.1.2]; exact Bool.false_ne_true)]
        rw [if_pos hcond'.2]
        rfl

theorem walkChildren_mem (now th : Int) (base : String) :
    ∀ (l : List Node) (comps : List String) (p : List String),
      p ∈ walkChildren now th base comps l ↔ ∃ c ∈ l, p ∈ walkNode now th base comps c := by
  intro l
  induction l with
  | nil =>
    intro comps p
    constructor
    · intro h; cases h
    · rintro ⟨c, hc, _⟩; cases hc
  | cons c cs ih =>
    intro comps p
    show p ∈ walkNode now th base comps c ++ walkChildren now th base comps cs ↔ _
    rw [List.mem_append, ih]
    constructor
    · rintro (h | ⟨c', hc', h⟩)
      · exact ⟨c, List.mem_cons_self c cs, h⟩
      · exact ⟨c', List.mem_cons_of_mem c hc', h⟩
    · rintro ⟨c', hc', h⟩
      rcases List.mem_cons.mp hc' with rfl | hc''
      · exact Or.inl h
      · exact Or.inr ⟨c', hc'', h⟩

theorem nodesAtL_mem :
    ∀ (l : List Node) (comps : List String) (pr : List String × Node),
      pr ∈ nodesAtL comps l ↔
        (∃ c ∈ l, pr = (comps, c)) ∨ ∃ c ∈ l, pr ∈ nodesAtN comps c := by
  intro l
  induction l with
  | nil =>
    intro comps pr
    constructor
    · intro h; cases h
    · rintro (⟨c, hc, _⟩ | ⟨c, hc, _⟩) <;> cases hc
  | cons c cs ih =>
    intro comps pr
    show pr ∈ (comps, c) :: (nodesAtN comps c ++ nodesAtL comps cs) ↔ _
    rw [List.mem_cons, List.mem_append, ih]
    constructor
    · rintro (rfl | h | (⟨c', hc', h⟩ | ⟨c', hc', h⟩))
      · exact Or.inl ⟨c, List.mem_cons_self c cs, rfl⟩
      · exact Or.inr ⟨c, List.mem_cons_self c cs, h⟩
      · exact Or.inl ⟨c', List.mem_cons_of_mem c hc', h⟩
      · exact Or.inr ⟨c', List.mem_cons_of_mem c hc', h⟩
    · rintro (⟨c', hc', h⟩ | ⟨c', hc', h⟩)
      · rcases List.mem_cons.mp hc' with rfl | hc''
        · exact Or.inl h
        · exact Or.inr (Or.inr (Or.inl ⟨c', hc'', h⟩))
      · rcases List.mem_cons.mp hc' with rfl | hc''
        · exact Or.inr (Or.inl h)
        · exact Or.inr (Or.inr (Or.inr ⟨c', hc'', h⟩))

/- Assembling one walk root: its own emissions plus the recursive walks of
   its children cover exactly the located nodes below it. -/
theorem walkAt_char (now th : Int) (base : String) (l : List Node)
    (comps : List String) (p : List String)
    (hall : ∀ c ∈ l, ∀ p',
      p' ∈ walkNode now th base comps c ↔
        ∃ pr ∈ nodesAtN comps c, p' = pr.1 ++ [nodeName pr.2] ∧
          emitCond now th base pr.1 pr.2 = true) :
    p ∈ emitRoot now th base comps l ++ walkChildren now th base comps l ↔
      ∃ pr ∈ nodesAtL comps l, p = pr.1 ++ [nodeName pr.2] ∧
        emitCond now th base pr.1 pr.2 = true := by
  rw [List.mem_append, emit_mem, walkChildren_mem]
  constructor
  · rintro (⟨c, hc, rfl, hcond⟩ | ⟨c, hc, h⟩)
    · exact ⟨(comps, c), (nodesAtL_mem l comps _).mpr (Or.inl ⟨c, hc, rfl⟩), rfl, hcond⟩
    · rcases (hall c hc p).mp h with ⟨pr, hpr, hp, hcond⟩
      exact ⟨pr, (nodesAtL_mem l comps pr).mpr (Or.inr ⟨c, hc, hpr⟩), hp, hcond⟩
  · rintro ⟨pr, hpr, hp, hcond⟩
    rcases (nodesAtL_mem l comps pr).mp hpr with ⟨c, hc, rfl⟩ | ⟨c, hc, hdeep⟩
    · exact Or.inl ⟨c, hc, hp, hcond⟩
    · exact Or.inr ⟨c, hc, (hall c hc p).mpr ⟨pr, hdeep, hp, hcond⟩⟩

/- The walk below one node covers exactly the located nodes below it. -/
theorem walk_char (now th : Int) (base : String) :
    ∀ (x : Node) (comps : List String) (p : List String),
      p ∈ walkNode now th base comps x ↔
        ∃ pr ∈ nodesAtN comps x, p = pr.1 ++ [nodeName pr.2] ∧
          emitCond now th base pr.1 pr.2 = true := by
  intro x
  induction x using Node.nodeInd with
  | hf n a =>
    intro comps p
    constructor
    · intro h; cases h
    · rintro ⟨pr, hpr, _⟩; cases hpr
  | hd nm a cs ih =>
    intro comps p
    exact walkAt_char now th base cs (comps ++ [nm]) p
      (fun c hc p' => ih c hc (comps ++ [nm]) p')

end FileMonitor

/-- C8: the specification claims findStale excludes anything inside a
bundle-shaped directory.  The walk's skip test looks for the substring
".app/" in the walk root's path string, which misses the root whose path
ENDS in ".app" — the bundle directory itself — so the direct children of a
bundle are scanned and returned when stale: with an old file "old.txt"
directly inside "Tool.app", get_old_files returns exactly that bundle
member. -/
theorem c8_counterexample :
    FileMonitor.get_old_files 100 10 "/Users/u/Downloads"
        [.dir "Tool.app" (some 0) [.file "old.txt" (some 0)]] =
      [["Tool.app", "old.txt"]] := by
  decide


namespace FileMonitor

theorem strContains_iff (s pat : String) :
    FileClassifier.strContains s pat = true ↔ pat.data <:+: s.data := by
  unfold FileClassifier.strContains
  rw [List.any_eq_true]
  constructor
  · rintro ⟨t, ht, hp⟩
    rw [List.mem_tails] at ht
    rw [List.isPrefixOf_iff_prefix] at hp
    exact List.infix_iff_prefix_suffix.mpr ⟨t, hp, ht⟩
  · intro h
    rcases List.infix_iff_prefix_suffix.mp h with ⟨t, hp, ht⟩
    exact ⟨t, (List.mem_tails t s.data).mpr ht, List.isPrefixOf_iff_prefix.mpr hp⟩

theorem pyStartsWith_iff (s p : String) :
    FileGrouper.pyStartsWith s p = true ↔ p.data <+: s.data :=
  List.isPrefixOf_iff_prefix

theorem pyEndsWith_iff (s p : String) :
    pyEndsWith s p = true ↔ p.data <:+ s.data :=
  List.isSuffixOf_iff_suffix

theorem joinPath_nil_data : (joinPath []).data = [] := rfl

theorem joinPath_cons_data (c : String) (r : List String) :
    (joinPath (c :: r)).data = '/' :: (c.data ++ (joinPath r).data) := by
  show ("/" ++ c ++ joinPath r).data = _
  simp [String.data_append]

theorem joinPath_shape (l : List String) :
    (joinPath l).data = [] ∨ ∃ T, (joinPath l).data = '/' :: T := by
  cases l with
  | nil => exact Or.inl rfl
  | cons c r => exact Or.inr ⟨c.data ++ (joinPath r).data, joinPath_cons_data c r⟩

/- A pattern without the path separator is a prefix of `A ++ T` — where `T`
   is empty or starts with the separator — exactly when it is a prefix of
   `A`. -/
theorem prefix_through_sep :
    ∀ (A M T : List Char), '/' ∉ M → (T = [] ∨ ∃ T', T = '/' :: T') →
      (M <+: A ++ T ↔ M <+: A) := by
  intro A
  induction A with
  | nil =>
    intro M T hM hT
    constructor
    · intro h
      cases M with
      | nil => exact List.nil_prefix
      | cons m M' =>
        rcases hT with rfl | ⟨T', rfl⟩
        · rw [List.nil_append, List.prefix_nil] at h
          cases h
        · rw [List.nil_append, List.cons_prefix_cons] at h
          have hmem : '/' ∈ m :: M' := by
            rw [← h.1]
            exact List.mem_cons_self m M'
          exact absurd hmem hM
    · intro h
      rw [List.prefix_nil] at h
      subst h
      exact List.nil_prefix
  | cons a A' ih =>
    intro M T hM hT
    cases M with
    | nil => simp
    | cons m M' =>
      have hM' : '/' ∉ M' := fun hx => hM (List.mem_cons_of_mem m hx)
      constructor
      · intro h
        rw [List.cons_append, List.cons_prefix_cons] at h
        rw [List.cons_prefix_cons]
        exact ⟨h.1, (ih M' T hM' hT).mp h.2⟩
      · intro h
        rw [List.cons_prefix_cons] at h
        rw [List.cons_append, List.cons_prefix_cons]
        exact ⟨h.1, (ih M' T hM' hT).mpr h.2⟩

/- Dual form for suffixes across the separator. -/
theorem suffix_through_sep (A C M : List Char) (hM : '/' ∉ M) :
    (M <:+ A ++ '/' :: C ↔ M <:+ C) := by
  have hrev : (A ++ '/' :: C).reverse = C.reverse ++ '/' :: A.reverse := by
    simp [List.reverse_append]
  constructor
  · intro h
    rw [← List.reverse_prefix, hrev] at h
    have hM' : '/' ∉ M.reverse := by
      intro hx
      exact hM (List.mem_reverse.mp hx)
    have := (prefix_through_sep C.reverse M.reverse ('/' :: A.reverse) hM'
      (Or.inr ⟨A.reverse, rfl⟩)).mp h
    exact List.reverse_prefix.mp this
  · intro h
    rw [← List.reverse_prefix] at h ⊢
    rw [hrev]
    have hM' : '/' ∉ M.reverse := by
      intro hx
      exact hM (List.mem_reverse.mp hx)
    exact (prefix_through_sep C.reverse M.reverse ('/' :: A.reverse) hM'
      (Or.inr ⟨A.reverse, rfl⟩)).mpr h

end FileMonitor

namespace FileMonitor

/- The Manual/Review skip: the walk root's path string extends the special
   folder's path string exactly when the first component of the root's
   relative path has the special name as a string prefix (the check of the
   source is a string-prefix test, not a component equality test). -/
theorem special_prefix_char (base w : String) (par : List String)
    (hw : '/' ∉ w.data) :
    FileGrouper.pyStartsWith (pathStr base par) (pathStr base [w]) = true ↔
      ∃ c1 rest, par = c1 :: rest ∧ FileGrouper.pyStartsWith c1 w = true := by
  rw [pyStartsWith_iff]
  have hd1 : (pathStr base [w]).data = base.data ++ '/' :: w.data := by
    show (base ++ joinPath [w]).data = _
    rw [String.data_append, joinPath_cons_data]
    simp [joinPath_nil_data]
  have hd2 : (pathStr base par).data = base.data ++ (joinPath par).data := by
    show (base ++ joinPath par).data = _
    rw [String.data_append]
  rw [hd1, hd2, List.prefix_append_right_inj]
  cases par with
  | nil =>
    rw [joinPath_nil_data]
    constructor
    · intro h
      rw [List.prefix_nil] at h
      cases h
    · rintro ⟨c1, rest, h, _⟩
      cases h
  | cons c1 rest =>
    rw [joinPath_cons_data, List.cons_prefix_cons]
    constructor
    · rintro ⟨_, h⟩
      refine ⟨c1, rest, rfl, ?_⟩
      rw [pyStartsWith_iff]
      exact (prefix_through_sep c1.data w.data (joinPath rest).data hw
        (joinPath_shape rest)).mp h
    · rintro ⟨c1', rest', heq, h⟩
      cases heq
      refine ⟨rfl, ?_⟩
      rw [pyStartsWith_iff] at h
      exact (prefix_through_sep c1.data w.data (joinPath rest).data hw
        (joinPath_shape rest)).mpr h

theorem memInfix {P S : List Char} (h : P <:+: S) {c : Char} (hc : c ∈ P) :
    c ∈ S := by
  rcases h with ⟨A, B, rfl⟩
  simp only [List.mem_append]
  exact Or.inl (Or.inr hc)

theorem contains_backslash_iff (s : String) :
    FileClassifier.strContains s "\\" = true ↔ '\\' ∈ s.data := by
  rw [strContains_iff]
  have hp : ("\\" : String).data = ['\\'] := rfl
  rw [hp]
  constructor
  · intro h
    exact memInfix h (List.mem_cons_self _ _)
  · intro h
    rcases List.append_of_mem h with ⟨s1, t1, heq⟩
    exact ⟨s1, t1, by rw [heq]; simp⟩

theorem contains_slash_iff (s : String) :
    FileClassifier.strContains s "/" = true ↔ '/' ∈ s.data := by
  rw [strContains_iff]
  have hp : ("/" : String).data = ['/'] := rfl
  rw [hp]
  constructor
  · intro h
    exact memInfix h (List.mem_cons_self _ _)
  · intro h
    rcases List.append_of_mem h with ⟨s1, t1, heq⟩
    exact ⟨s1, t1, by rw [heq]; simp⟩

theorem cleanName_no_slash {c : String} (h : cleanName c = true) : '/' ∉ c.data := by
  intro hmem
  have h2 := (contains_slash_iff c).mpr hmem
  unfold cleanName at h
  simp only [Bool.and_eq_true, Bool.not_eq_true'] at h
  rw [h.1] at h2
  cases h2

theorem cleanName_no_backslash {c : String} (h : cleanName c = true) :
    ('\\' : Char) ∉ c.data := by
  intro hmem
  have h2 := (contains_backslash_iff c).mpr hmem
  unfold cleanName at h
  simp only [Bool.and_eq_true, Bool.not_eq_true'] at h
  rw [h.2] at h2
  cases h2

theorem no_backslash_path (base : String) (par : List String)
    (hb : cleanBase base = true) (hn : ∀ c ∈ par, cleanName c = true) :
    ('\\' : Char) ∉ (pathStr base par).data := by
  show ('\\' : Char) ∉ (base ++ joinPath par).data
  rw [String.data_append]
  intro hmem
  rcases List.mem_append.mp hmem with h | h
  · have h2 := (contains_backslash_iff base).mpr h
    unfold cleanBase at hb
    simp only [Bool.and_eq_true, Bool.not_eq_true'] at hb
    rw [hb.1.1] at h2
    cases h2
  · have hall : ∀ (l : List String), (∀ c ∈ l, cleanName c = true) →
        ('\\' : Char) ∉ (joinPath l).data := by
      intro l
      induction l with
      | nil =>
        intro _ hx
        rw [joinPath_nil_data] at hx
        cases hx
      | cons c r ih =>
        intro hcl hx
        rw [joinPath_cons_data] at hx
        rcases List.mem_cons.mp hx with heq | hx'
        · exact absurd heq (by decide)
        · rcases List.mem_append.mp hx' with h1 | h1
          · exact cleanName_no_backslash (hcl c (List.mem_cons_self c r)) h1
          · exact ih (fun x hx => hcl x (List.mem_cons_of_mem c hx)) h1
    exact hall par hn h

theorem no_backslash_pattern (base : String) (par : List String)
    (hb : cleanBase base = true) (hn : ∀ c ∈ par, cleanName c = true) :
    FileClassifier.strContains (pathStr base par) ".app\\" = false := by
  rw [← Bool.not_eq_true, strContains_iff]
  intro h
  have hmem : ('\\' : Char) ∈ (".app\\" : String).data := by decide
  exact no_backslash_path base par hb hn (memInfix h hmem)

end FileMonitor

namespace FileMonitor

/- Extending a clean path string by a separator and one slash-free component
   cannot create a ".app/" occurrence unless the previous string ends in
   ".app" (the straddling case) — the single occurrence-position analysis
   behind the bundle-skip characterization. -/
theorem appq_no_infix_ext (B : List Char) (c : String)
    (hB : ¬ (['.', 'a', 'p', 'p', '/'] <:+: B))
    (hBe : ¬ (['.', 'a', 'p', 'p'] <:+ B))
    (hc : '/' ∉ c.data) :
    ¬ (['.', 'a', 'p', 'p', '/'] <:+: B ++ '/' :: c.data) := by
  rintro ⟨X, Y, hS⟩
  have hS' : X ++ (['.', 'a', 'p', 'p', '/'] ++ Y) = B ++ '/' :: c.data := by
    rw [← List.append_assoc]
    exact hS
  have hlen : X.length + 5 + Y.length = B.length + 1 + c.data.length := by
    have h2 := congrArg List.length hS'
    simp only [List.length_append, List.length_cons, List.length_nil] at h2
    omega
  by_cases h1 : X.length + 5 ≤ B.length
  · apply hB
    have hr : (B ++ '/' :: c.data).take B.length = B := List.take_left' rfl
    have ht := congrArg (List.take B.length) hS'
    rw [hr, List.take_append_eq_append_take,
      List.take_of_length_le (by omega : X.length ≤ B.length),
      List.take_append_eq_append_take,
      List.take_of_length_le
        (by simp; omega : (['.', 'a', 'p', 'p', '/'] : List Char).length ≤
          B.length - X.length)] at ht
    exact ⟨X,
      List.take (B.length - X.length - (['.', 'a', 'p', 'p', '/'] : List Char).length) Y,
      by rw [List.append_assoc]; exact ht⟩
  · by_cases h2 : X.length + 4 = B.length
    · apply hBe
      have hr : (B ++ '/' :: c.data).take B.length = B := List.take_left' rfl
      have ht := congrArg (List.take B.length) hS'
      rw [hr, List.take_append_eq_append_take,
        List.take_of_length_le (by omega : X.length ≤ B.length)] at ht
      have h4 : B.length - X.length = 4 := by omega
      rw [h4] at ht
      have htake : (['.', 'a', 'p', 'p', '/'] ++ Y).take 4 = ['.', 'a', 'p', 'p'] := rfl
      rw [htake] at ht
      exact ⟨X, ht⟩
    · by_cases h3 : X.length ≤ B.length
      · -- the new component would have to open with part of ".app/": impossible,
        -- since it starts right after the separator while ".app/" ends with one
        have hd := congrArg (List.drop X.length) hS'
        rw [List.drop_left] at hd
        rw [List.drop_append_eq_append_drop,
          Nat.sub_eq_zero_of_le h3, List.drop_zero] at hd
        have hDlen : (B.drop X.length).length ≤ 3 := by
          rw [List.length_drop]
          omega
        have ht : (['.', 'a', 'p', 'p', '/'] ++ Y).take ((B.drop X.length).length + 1) =
            B.drop X.length ++ ['/'] := by
          rw [hd, List.take_append_eq_append_take,
            List.take_of_length_le
              (by omega : (B.drop X.length).length ≤ (B.drop X.length).length + 1)]
          have h5 : (B.drop X.length).length + 1 - (B.drop X.length).length = 1 := by
            omega
          rw [h5]
          rfl
        have hmem : '/' ∈ (['.', 'a', 'p', 'p', '/'] ++ Y).take
            ((B.drop X.length).length + 1) := by
          rw [ht]
          simp
        have hk : (B.drop X.length).length = 0 ∨ (B.drop X.length).length = 1 ∨
            (B.drop X.length).length = 2 ∨ (B.drop X.length).length = 3 := by omega
        rcases hk with hk | hk | hk | hk <;> rw [hk] at hmem <;> simp at hmem
      · -- the whole occurrence would sit inside the new component,
        -- yet it carries a slash the component lacks
        have e1 : B.length + 1 - X.length = 0 := by omega
        have hlhs : (X ++ (['.', 'a', 'p', 'p', '/'] ++ Y)).drop (B.length + 1) =
            X.drop (B.length + 1) ++ (['.', 'a', 'p', 'p', '/'] ++ Y) := by
          rw [List.drop_append_eq_append_drop, e1, List.drop_zero]
        have hrhs : (B ++ '/' :: c.data).drop (B.length + 1) = c.data := by
          have hsplit : B ++ '/' :: c.data = (B ++ ['/']) ++ c.data := by simp
          have hl : (B ++ ['/']).length = B.length + 1 := by simp
          rw [hsplit, ← hl, List.drop_left]
        have hd2 : X.drop (B.length + 1) ++ (['.', 'a', 'p', 'p', '/'] ++ Y) =
            c.data := by
          rw [← hlhs, hS', hrhs]
        have hmem : '/' ∈ c.data := by
          rw [← hd2]
          simp
        exact hc hmem

end FileMonitor

namespace FileMonitor

/- Where ".app/" can occur in `B ++ joinPath par` when `B` is clean and the
   components are slash-free: either `B` ends in ".app" and at least one
   separator follows, or some non-final component ends in ".app". -/
theorem appq_char :
    ∀ (par : List String) (B : List Char),
      ¬ (['.', 'a', 'p', 'p', '/'] <:+: B) →
      (∀ c ∈ par, '/' ∉ c.data) →
      ((['.', 'a', 'p', 'p', '/'] <:+: B ++ (joinPath par).data) ↔
        ((['.', 'a', 'p', 'p'] <:+ B) ∧ par ≠ []) ∨
          ∃ c ∈ par.dropLast, pyEndsWith c ".app" = true) := by
  intro par
  induction par with
  | nil =>
    intro B hB _
    rw [joinPath_nil_data, List.append_nil]
    constructor
    · intro h
      exact absurd h hB
    · rintro (⟨_, h⟩ | ⟨c, hc, _⟩)
      · exact absurd rfl h
      · cases hc
  | cons c rest ih =>
    intro B hB hn
    rw [joinPath_cons_data]
    have hre : B ++ '/' :: (c.data ++ (joinPath rest).data) =
        (B ++ '/' :: c.data) ++ (joinPath rest).data := by
      simp
    rw [hre]
    by_cases hBe : ['.', 'a', 'p', 'p'] <:+ B
    · constructor
      · intro _
        exact Or.inl ⟨hBe, by simp⟩
      · intro _
        rcases hBe with ⟨t, ht⟩
        refine ⟨t, c.data ++ (joinPath rest).data, ?_⟩
        rw [← ht]
        simp
    · have hn' : ∀ x ∈ rest, '/' ∉ x.data :=
        fun x hx => hn x (List.mem_cons_of_mem c hx)
      have hc' : '/' ∉ c.data := hn c (List.mem_cons_self c rest)
      have hB' := appq_no_infix_ext B c hB hBe hc'
      rw [ih (B ++ '/' :: c.data) hB' hn']
      have hsuf : (['.', 'a', 'p', 'p'] <:+ B ++ '/' :: c.data) ↔
          pyEndsWith c ".app" = true := by
        rw [pyEndsWith_iff]
        have hq : (".app" : String).data = ['.', 'a', 'p', 'p'] := rfl
        rw [hq]
        exact suffix_through_sep B c.data ['.', 'a', 'p', 'p'] (by decide)
      rw [hsuf]
      cases rest with
      | nil =>
        constructor
        · rintro (⟨_, h⟩ | ⟨x, hx, _⟩)
          · exact absurd rfl h
          · cases hx
        · rintro (⟨h, _⟩ | ⟨x, hx, _⟩)
          · exact absurd h hBe
          · cases hx
      | cons r0 r1 =>
        constructor
        · rintro (⟨hend, _⟩ | ⟨x, hx, hxe⟩)
          · refine Or.inr ⟨c, ?_, hend⟩
            rw [List.dropLast_cons₂]
            exact List.mem_cons_self _ _
          · refine Or.inr ⟨x, ?_, hxe⟩
            rw [List.dropLast_cons₂]
            exact List.mem_cons_of_mem c hx
        · rintro (⟨h, _⟩ | ⟨x, hx, hxe⟩)
          · exact absurd h hBe
          · rw [List.dropLast_cons₂] at hx
            rcases List.mem_cons.mp hx with rfl | hx'
            · exact Or.inl ⟨hxe, by simp⟩
            · exact Or.inr ⟨x, hx', hxe⟩

end FileMonitor

namespace FileMonitor

/- Under clean names and a clean base, the walk's string-based root skip is
   equivalent to a purely structural condition on the relative path: the
   first component starts with "Manual" or "Review", or a non-final component
   ends in ".app". -/
theorem skipRoot_char (base : String) (par : List String)
    (hb : cleanBase base = true) (hn : ∀ c ∈ par, cleanName c = true) :
    (skipRoot base par = true ↔
      (∃ c1 rest, par = c1 :: rest ∧
        (FileGrouper.pyStartsWith c1 "Manual" = true ∨
         FileGrouper.pyStartsWith c1 "Review" = true)) ∨
      ∃ c ∈ par.dropLast, pyEndsWith c ".app" = true) := by
  unfold cleanBase at hb
  simp only [Bool.and_eq_true, Bool.not_eq_true'] at hb
  unfold skipRoot
  simp only [Bool.or_eq_true]
  rw [special_prefix_char base "Manual" par (by decide),
    special_prefix_char base "Review" par (by decide),
    no_backslash_pattern base par
      (by unfold cleanBase; simp only [Bool.and_eq_true, Bool.not_eq_true']; exact hb) hn]
  have hq : (".app/" : String).data = ['.', 'a', 'p', 'p', '/'] := rfl
  have hb' : ¬ (['.', 'a', 'p', 'p', '/'] <:+: base.data) := by
    intro h
    have h2 := (strContains_iff base ".app/").mpr (by rw [hq]; exact h)
    rw [hb.1.2] at h2
    exact absurd h2 (by decide)
  have hbe : ¬ (['.', 'a', 'p', 'p'] <:+ base.data) := by
    intro h
    have h2 := (pyEndsWith_iff base ".app").mpr
      (by rw [show (".app" : String).data = ['.', 'a', 'p', 'p'] from rfl]; exact h)
    rw [hb.2] at h2
    exact absurd h2 (by decide)
  have happ : FileClassifier.strContains (pathStr base par) ".app/" = true ↔
      ∃ c ∈ par.dropLast, pyEndsWith c ".app" = true := by
    rw [strContains_iff]
    have hd2 : (pathStr base par).data = base.data ++ (joinPath par).data := by
      show (base ++ joinPath par).data = _
      rw [String.data_append]
    rw [hq, hd2,
      appq_char par base.data hb' (fun c hc => cleanName_no_slash (hn c hc))]
    constructor
    · rintro (⟨h, _⟩ | h)
      · exact absurd h hbe
      · exact h
    · intro h
      exact Or.inr h
  rw [happ]
  constructor
  · rintro (((⟨c1, rest, hpe, hm⟩ | ⟨c1, rest, hpe, hm⟩) | h) | h)
    · exact Or.inl ⟨c1, rest, hpe, Or.inl hm⟩
    · exact Or.inl ⟨c1, rest, hpe, Or.inr hm⟩
    · exact Or.inr h
    · exact absurd h (by decide)
  · rintro (⟨c1, rest, hpe, hm | hm⟩ | h)
    · exact Or.inl (Or.inl (Or.inl ⟨c1, rest, hpe, hm⟩))
    · exact Or.inl (Or.inl (Or.inr ⟨c1, rest, hpe, hm⟩))
    · exact Or.inl (Or.inr h)

end FileMonitor

namespace FileMonitor

theorem cleanNamesL_mem :
    ∀ (l : List Node), cleanNamesL l = true → ∀ c ∈ l, cleanNamesN c = true := by
  intro l
  induction l with
  | nil =>
    intro _ c hc
    cases hc
  | cons c cs ih =>
    intro h x hx
    have h' : cleanNamesN c = true ∧ cleanNamesL cs = true := by
      have h2 : (cleanNamesN c && cleanNamesL cs) = true := h
      rw [Bool.and_eq_true] at h2
      exact h2
    rcases List.mem_cons.mp hx with rfl | hx'
    · exact h'.1
    · exact ih h'.2 x hx'

/- The parent path recorded for any located node consists of directory names
   of the tree, so it inherits the tree's name hygiene. -/
theorem nodesAtN_clean :
    ∀ (x : Node) (comps : List String), cleanNamesN x = true →
      (∀ c ∈ comps, cleanName c = true) →
      ∀ pr ∈ nodesAtN comps x, ∀ c ∈ pr.1, cleanName c = true := by
  intro x
  induction x using Node.nodeInd with
  | hf n a =>
    intro comps _ _ pr hpr
    cases hpr
  | hd nm a cs ih =>
    intro comps hcl hcomps pr hpr
    have hnm : cleanName nm = true ∧ cleanNamesL cs = true := by
      have h2 : (cleanName nm && cleanNamesL cs) = true := hcl
      rw [Bool.and_eq_true] at h2
      exact h2
    have hcomps' : ∀ c ∈ comps ++ [nm], cleanName c = true := by
      intro c hc
      rcases List.mem_append.mp hc with h | h
      · exact hcomps c h
      · rcases List.mem_cons.mp h with rfl | h'
        · exact hnm.1
        · cases h'
    have hpr' : pr ∈ nodesAtL (comps ++ [nm]) cs := hpr
    rcases (nodesAtL_mem cs (comps ++ [nm]) pr).mp hpr' with ⟨c, hc, rfl⟩ | ⟨c, hc, hdeep⟩
    · exact hcomps'
    · exact ih c hc (comps ++ [nm]) (cleanNamesL_mem cs hnm.2 c hc) hcomps' pr hdeep

theorem nodesAtL_clean (l : List Node) (comps : List String)
    (hl : cleanNamesL l = true) (hcomps : ∀ c ∈ comps, cleanName c = true) :
    ∀ pr ∈ nodesAtL comps l, ∀ c ∈ pr.1, cleanName c = true := by
  intro pr hpr
  rcases (nodesAtL_mem l comps pr).mp hpr with ⟨c, hc, rfl⟩ | ⟨c, hc, hdeep⟩
  · exact hcomps
  · exact nodesAtN_clean c comps (cleanNamesL_mem l hl c hc) hcomps pr hdeep

/- Under name hygiene, the emit condition of the walk coincides with the
   purely structural staleness condition. -/
theorem emitCond_iff_staleSpec (now threshold : Int) (base : String)
    (par : List String) (x : Node)
    (hb : cleanBase base = true) (hn : ∀ c ∈ par, cleanName c = true) :
    (emitCond now threshold base par x = true ↔
      staleSpec now threshold par x = true) := by
  have hiff := skipRoot_char base par hb hn
  cases par with
  | nil =>
    have hsf : skipRoot base [] = false := by
      cases hS : skipRoot base [] with
      | false => rfl
      | true =>
        rcases hiff.mp hS with ⟨c1, rest, hpe, _⟩ | ⟨c, hc, _⟩
        · cases hpe
        · cases hc
    unfold emitCond staleSpec
    rw [hsf]
    cases x with
    | file nm a => simp
    | dir nm a cs => simp
  | cons c1 rest =>
    have hsk : (!skipRoot base (c1 :: rest)) =
        ((!(FileGrouper.pyStartsWith c1 "Manual" ||
            FileGrouper.pyStartsWith c1 "Review")) &&
          !((c1 :: rest).dropLast.any (fun c => pyEndsWith c ".app"))) := by
      cases hS : skipRoot base (c1 :: rest) with
      | true =>
        rcases hiff.mp hS with ⟨c1', rest', hpe, hm⟩ | ⟨c, hc, he⟩
        · injection hpe with h1 h2
          subst h1
          subst h2
          rcases hm with hm | hm <;> rw [hm] <;> simp
        · have hA : (c1 :: rest).dropLast.any (fun c => pyEndsWith c ".app") = true :=
            List.any_eq_true.mpr ⟨c, hc, he⟩
          rw [hA]
          simp
      | false =>
        have hnd : ¬ ((∃ c1' rest', (c1 :: rest : List String) = c1' :: rest' ∧
            (FileGrouper.pyStartsWith c1' "Manual" = true ∨
             FileGrouper.pyStartsWith c1' "Review" = true)) ∨
            ∃ c ∈ (c1 :: rest).dropLast, pyEndsWith c ".app" = true) := by
          intro hd
          exact absurd (hiff.mpr hd) (by rw [hS]; decide)
        have hM : FileGrouper.pyStartsWith c1 "Manual" = false := by
          cases hx : FileGrouper.pyStartsWith c1 "Manual" with
          | false => rfl
          | true => exact absurd (Or.inl ⟨c1, rest, rfl, Or.inl hx⟩) hnd
        have hR : FileGrouper.pyStartsWith c1 "Review" = false := by
          cases hx : FileGrouper.pyStartsWith c1 "Review" with
          | false => rfl
          | true => exact absurd (Or.inl ⟨c1, rest, rfl, Or.inr hx⟩) hnd
        have hA : (c1 :: rest).dropLast.any (fun c => pyEndsWith c ".app") = false := by
          cases hx : (c1 :: rest).dropLast.any (fun c => pyEndsWith c ".app") with
          | false => rfl
          | true =>
            rw [List.any_eq_true] at hx
            obtain ⟨c, hc, he⟩ := hx
            exact absurd (Or.inr ⟨c, hc, he⟩) hnd
        rw [hM, hR, hA]
        rfl
    unfold emitCond staleSpec
    rw [hsk]
    cases x with
    | file nm a =>
      exact Iff.rfl
    | dir nm a cs =>
      simp only [List.head?_cons, Bool.and_eq_true, Bool.not_eq_true']
      tauto

end FileMonitor

/-- C8 (amended): get_old_files returns exactly the items (located anywhere
in the tree) satisfying the emit condition: the parent root is not skipped
(skipped means: its path string starts with the base's Manual or Review path
string, or contains ".app/" or ".app\" — so bundle EXCLUSION only covers
items whose parent lies strictly inside a bundle, leaving the bundle's
direct children scanned), the item's metadata is readable and older than the
threshold, and a directory item additionally is neither a direct child of
the base nor hidden (hidden directories are excluded even though the claim
lists no such exclusion).  The second part exhibits the bundle divergence
generically: any stale file directly inside a top-level bundle is returned;
the third shows hidden directories never satisfy the emit condition; the
fourth restates the characterization structurally: for a backslash-free
tree under a clean base, an item is returned exactly when its metadata is
stale and the structural skip conditions (first path component starting
with Manual/Review, a non-final ancestor ending in ".app", a directory
item at top level or hidden) all fail. -/
theorem c8_amended :
    (∀ (now th : Int) (base : String) (children : List FileMonitor.Node)
        (p : List String),
        p ∈ FileMonitor.get_old_files now th base children ↔
          ∃ pr ∈ FileMonitor.nodesAtL [] children,
            p = pr.1 ++ [FileMonitor.nodeName pr.2] ∧
            FileMonitor.emitCond now th base pr.1 pr.2 = true) ∧
    (∀ (now th a : Int) (fname : String), th < now - a →
        ["Tool.app", fname] ∈ FileMonitor.get_old_files now th "/Users/u/Downloads"
          [.dir "Tool.app" (some a) [.file fname (some a)]]) ∧
    (∀ (now th : Int) (base : String) (par : List String) (nm : String)
        (a : Option Int) (cs : List FileMonitor.Node),
        FileMonitor.emitCond now th base par (.dir ("." ++ nm) a cs) = false) ∧
    (∀ (now th : Int) (base : String) (children : List FileMonitor.Node)
        (p : List String),
        FileMonitor.cleanBase base = true →
        FileMonitor.cleanNamesL children = true →
        (p ∈ FileMonitor.get_old_files now th base children ↔
          ∃ pr ∈ FileMonitor.nodesAtL [] children,
            p = pr.1 ++ [FileMonitor.nodeName pr.2] ∧
            FileMonitor.staleSpec now th pr.1 pr.2 = true)) := by
  refine ⟨?_, ?_, ?_, ?_⟩
  · intro now th base children p
    exact FileMonitor.walkAt_char now th base children [] p
      (fun c hc p' => FileMonitor.walk_char now th base c [] p')
  · intro now th a fname h
    refine List.mem_append.mpr (Or.inr ?_)
    rw [FileMonitor.walkChildren_mem]
    refine ⟨_, List.mem_cons_self _ _, ?_⟩
    show ["Tool.app", fname] ∈
      FileMonitor.emitRoot now th "/Users/u/Downloads" ["Tool.app"]
        [.file fname (some a)] ++
      FileMonitor.walkChildren now th "/Users/u/Downloads" ["Tool.app"]
        [.file fname (some a)]
    refine List.mem_append.mpr (Or.inl ?_)
    rw [FileMonitor.emit_mem]
    refine ⟨.file fname (some a), List.mem_cons_self _ _, rfl, ?_⟩
    show (!FileMonitor.skipRoot "/Users/u/Downloads" ["Tool.app"] &&
      FileMonitor.oldP now th (some a)) = true
    have hskip : FileMonitor.skipRoot "/Users/u/Downloads" ["Tool.app"] = false := by
      decide
    have hold : FileMonitor.oldP now th (some a) = true := by
      show decide (th < now - a) = true
      exact decide_eq_true h
    rw [hskip, hold]
    rfl
  · intro now th base par nm a cs
    show (!FileMonitor.skipRoot base par &&
      (!par.isEmpty && !(FileGrouper.pyStartsWith ("." ++ nm) ".") &&
        FileMonitor.oldP now th a)) = false
    have hdot : FileGrouper.pyStartsWith ("." ++ nm) "." = true := by
      show (".".data.isPrefixOf ("." ++ nm).data) = true
      rw [String.data_append]
      simp [List.isPrefixOf]
    rw [hdot]
    simp
  · intro now th base children p hb hcl
    refine Iff.trans (FileMonitor.walkAt_char now th base children [] p
      (fun c hc p' => FileMonitor.walk_char now th base c [] p')) ?_
    constructor
    · rintro ⟨pr, hpr, hp, hcond⟩
      exact ⟨pr, hpr, hp,
        (FileMonitor.emitCond_iff_staleSpec now th base pr.1 pr.2 hb
          (FileMonitor.nodesAtL_clean children [] hcl
            (fun c hc => absurd hc (List.not_mem_nil c)) pr hpr)).mp hcond⟩
    · rintro ⟨pr, hpr, hp, hcond⟩
      exact ⟨pr, hpr, hp,
        (FileMonitor.emitCond_iff_staleSpec now th base pr.1 pr.2 hb
          (FileMonitor.nodesAtL_clean children [] hcl
            (fun c hc => absurd hc (List.not_mem_nil c)) pr hpr)).mpr hcond⟩

/-- C8 witness: the amended theorem's bundle part at a concrete stale file
inside a concrete bundle. -/
theorem c8_amended_witness :
    ["Tool.app", "report.pdf"] ∈ FileMonitor.get_old_files 100 10 "/Users/u/Downloads"
      [.dir "Tool.app" (some 0) [.file "report.pdf" (some 0)]] :=
  c8_amended.2.1 100 10 0 "report.pdf" (by decide)
